import Mathlib

/-!
Verification of the essentia mining plugin against its specification.

The Rust sources are shallowly embedded: machine integers become `Nat`
with explicit reduction modulo `2 ^ 32` (or `2 ^ 64`) where the source
uses wrapping arithmetic, byte arrays become `List Nat` with every entry
below 256, `f64` quantities become `Rat` (every floating-point value that
a settled claim evaluates is exactly representable, so the rational model
agrees with the IEEE computation at those points), and fallible
operations return `Except MiningError`.
-/

set_option maxRecDepth 10000

/-- Word mask for 32-bit arithmetic. -/
def u32Mod : Nat := 2 ^ 32

/-- Largest `u32` value, `0xFFFFFFFF`. -/
def u32Max : Nat := 2 ^ 32 - 1

/-- Wrapping 32-bit addition (`u32::wrapping_add`). -/
def add32 (a b : Nat) : Nat := (a + b) % u32Mod

/-- Bitwise complement on 32 bits (Rust `!x` on `u32`). -/
def not32 (x : Nat) : Nat := Nat.xor x u32Max

/-- 32-bit right rotation (`u32::rotate_right`). -/
def rotr32 (n x : Nat) : Nat :=
  ((x >>> n) ||| (x <<< (32 - n))) % u32Mod

/-- Three-way xor, used by the sigma functions of SHA-256. -/
def xor3 (a b c : Nat) : Nat := Nat.xor (Nat.xor a b) c

/-- SHA-256 initial hash values `H` from `sha256.rs`. -/
def shaH0 : List Nat :=
  [0x6A09E667, 0xBB67AE85, 0x3C6EF372, 0xA54FF53A,
   0x510E527F, 0x9B05688C, 0x1F83D9AB, 0x5BE0CD19]

/-- SHA-256 round constants `K` from `sha256.rs`. -/
def shaK : List Nat :=
  [0x428A2F98, 0x71374491, 0xB5C0FBCF, 0xE9B5DBA5, 0x3956C25B, 0x59F111F1,
   0x923F82A4, 0xAB1C5ED5, 0xD807AA98, 0x12835B01, 0x243185BE, 0x550C7DC3,
   0x72BE5D74, 0x80DEB1FE, 0x9BDC06A7, 0xC19BF174, 0xE49B69C1, 0xEFBE4786,
   0x0FC19DC6, 0x240CA1CC, 0x2DE92C6F, 0x4A7484AA, 0x5CB0A9DC, 0x76F988DA,
   0x983E5152, 0xA831C66D, 0xB00327C8, 0xBF597FC7, 0xC6E00BF3, 0xD5A79147,
   0x06CA6351, 0x14292967, 0x27B70A85, 0x2E1B2138, 0x4D2C6DFC, 0x53380D13,
   0x650A7354, 0x766A0ABB, 0x81C2C92E, 0x92722C85, 0xA2BFE8A1, 0xA81A664B,
   0xC24B8B70, 0xC76C51A3, 0xD192E819, 0xD6990624, 0xF40E3585, 0x106AA070,
   0x19A4C116, 0x1E376C08, 0x2748774C, 0x34B0BCB5, 0x391C0CB3, 0x4ED8AA4A,
   0x5B9CCA4F, 0x682E6FF3, 0x748F82EE, 0x78A5636F, 0x84C87814, 0x8CC70208,
   0x90BEFFFA, 0xA4506CEB, 0xBEF9A3F7, 0xC67178F2]

/-- Big-endian assembly of one 32-bit word from four bytes
(`u32::from_be_bytes` in `process_block`). -/
def be32 (b0 b1 b2 b3 : Nat) : Nat :=
  ((b0 % 256) <<< 24) ||| ((b1 % 256) <<< 16) ||| ((b2 % 256) <<< 8) ||| (b3 % 256)

/-- First 16 schedule words of a 64-byte block. -/
def blockWords : List Nat → List Nat
  | b0 :: b1 :: b2 :: b3 :: rest => be32 b0 b1 b2 b3 :: blockWords rest
  | _ => []

/-- Lower sigma-0: `rotr 7 ^ rotr 18 ^ (x >> 3)`. -/
def ssig0 (x : Nat) : Nat := xor3 (rotr32 7 x) (rotr32 18 x) (x >>> 3)

/-- Lower sigma-1: `rotr 17 ^ rotr 19 ^ (x >> 10)`. -/
def ssig1 (x : Nat) : Nat := xor3 (rotr32 17 x) (rotr32 19 x) (x >>> 10)

/-- One schedule-extension step.  The list holds the schedule so far in
reverse (most recent word first), so `w[i-16]` is at index 15, `w[i-15]`
at 14, `w[i-7]` at 6 and `w[i-2]` at 1. -/
def extendStep (w : List Nat) : List Nat :=
  add32 (add32 (add32 (w.getD 15 0) (ssig0 (w.getD 14 0))) (w.getD 6 0))
      (ssig1 (w.getD 1 0)) :: w

/-- Iterate the schedule extension `n` times. -/
def extendIter : Nat → List Nat → List Nat
  | 0, w => w
  | n + 1, w => extendIter n (extendStep w)

/-- Full 64-word message schedule of a block (words of the block extended
by 48 steps, restored to forward order). -/
def messageSchedule (block : List Nat) : List Nat :=
  (extendIter 48 (blockWords block).reverse).reverse

/-- Upper sigma-1: `rotr 6 ^ rotr 11 ^ rotr 25`. -/
def bsig1 (x : Nat) : Nat := xor3 (rotr32 6 x) (rotr32 11 x) (rotr32 25 x)

/-- Upper sigma-0: `rotr 2 ^ rotr 13 ^ rotr 22`. -/
def bsig0 (x : Nat) : Nat := xor3 (rotr32 2 x) (rotr32 13 x) (rotr32 22 x)

/-- One compression round of `process_block`; the state is the list
`[a, b, c, d, e, f, g, h]` and `kw` packs `K[i]` with `w[i]`. -/
def compressRound (st : List Nat) (kw : Nat × Nat) : List Nat :=
  match st with
  | [a, b, c, d, e, f, g, h] =>
    let s1 := bsig1 e
    let ch := Nat.xor (e &&& f) ((not32 e) &&& g)
    let temp1 := add32 (add32 (add32 (add32 h s1) ch) kw.1) kw.2
    let s0 := bsig0 a
    let maj := xor3 (a &&& b) (a &&& c) (b &&& c)
    let temp2 := add32 s0 maj
    [add32 temp1 temp2, a, b, c, add32 d temp1, e, f, g]
  | other => other

/-- `process_block`: run the 64 compression rounds over the message
schedule and add the result back into the running state. -/
def processBlock (state block : List Nat) : List Nat :=
  let w := messageSchedule block
  let final := (shaK.zip w).foldl compressRound state
  (state.zip final).map fun p => add32 p.1 p.2

/-- Split the padded message into 64-byte blocks and absorb `n` of them. -/
def processBlocks : Nat → List Nat → List Nat → List Nat
  | 0, state, _ => state
  | n + 1, state, bytes => processBlocks n (processBlock state (bytes.take 64)) (bytes.drop 64)

/-- Big-endian bytes of a 64-bit value (`u64::to_be_bytes` of the bit
length in `finalize`). -/
def be64Bytes (x : Nat) : List Nat :=
  [x >>> 56 % 256, x >>> 48 % 256, x >>> 40 % 256, x >>> 32 % 256,
   x >>> 24 % 256, x >>> 16 % 256, x >>> 8 % 256, x % 256]

/-- SHA-256 padding as performed by `finalize` of `sha256.rs`: append
`0x80`, zero-fill until the length is 56 modulo 64, then the bit length
as eight big-endian bytes. -/
def sha256Pad (msg : List Nat) : List Nat :=
  let zeros := (119 - msg.length % 64) % 64
  msg ++ [0x80] ++ List.replicate zeros 0 ++ be64Bytes (msg.length * 8 % 2 ^ 64)

/-- Render the final eight state words as 32 big-endian bytes. -/
def stateBytes (state : List Nat) : List Nat :=
  state.flatMap fun w => [w >>> 24 % 256, w >>> 16 % 256, w >>> 8 % 256, w % 256]

/-- `sha256` of `sha256.rs`: the `new`/`update`/`finalize` pipeline,
specialized to one full `update` (pad, absorb every 64-byte block into
the initial state, serialize the state). -/
def sha256 (data : List Nat) : List Nat :=
  let padded := sha256Pad data
  stateBytes (processBlocks (padded.length / 64) shaH0 padded)

/-- `double_sha256` of `sha256.rs`: `sha256(sha256(data))`. -/
def double_sha256 (data : List Nat) : List Nat := sha256 (sha256 data)

example : sha256 [] =
    [0xE3, 0xB0, 0xC4, 0x42, 0x98, 0xFC, 0x1C, 0x14, 0x9A, 0xFB, 0xF4, 0xC8,
     0x99, 0x6F, 0xB9, 0x24, 0x27, 0xAE, 0x41, 0xE4, 0x64, 0x9B, 0x93, 0x4C,
     0xA4, 0x95, 0x99, 0x1B, 0x78, 0x52, 0xB8, 0x55] := by decide

/-- `BlockHeader` of `types.rs`; the integer fields are `u32` values and
the two hash fields are 32-byte arrays. -/
structure BlockHeader where
  version : Nat
  prev_block_hash : List Nat
  merkle_root : List Nat
  timestamp : Nat
  bits : Nat
  nonce : Nat

/-- Little-endian bytes of a `u32` (`u32::to_le_bytes`). -/
def le4 (x : Nat) : List Nat :=
  [x % 256, x >>> 8 % 256, x >>> 16 % 256, x >>> 24 % 256]

/-- `BlockHeader::serialize`: 80 bytes, integers little-endian, hash
fields as stored. -/
def BlockHeader.serialize (h : BlockHeader) : List Nat :=
  le4 h.version ++ h.prev_block_hash ++ h.merkle_root ++
    le4 h.timestamp ++ le4 h.bits ++ le4 h.nonce

/-- `HashTarget` of `types.rs`: a 32-byte big-endian threshold. -/
structure HashTarget where
  target : List Nat

/-- `HashTarget::from_bits`: decode compact difficulty bits.  The guards
on `start + 1 < 32` and `start + 2 < 32` mirror the source. -/
def HashTarget.from_bits (bits : Nat) : HashTarget :=
  let exponent := (bits >>> 24) &&& 0xFF
  let mantissa := bits &&& 0xFFFFFF
  let t0 := List.replicate 32 0
  if 3 ≤ exponent ∧ exponent ≤ 32 then
    let start := 32 - exponent
    let t1 := t0.set start ((mantissa >>> 16) &&& 0xFF)
    let t2 := if start + 1 < 32 then t1.set (start + 1) ((mantissa >>> 8) &&& 0xFF) else t1
    let t3 := if start + 2 < 32 then t2.set (start + 2) (mantissa &&& 0xFF) else t2
    ⟨t3⟩
  else ⟨t0⟩

/-- Byte-by-byte comparison loop of `HashTarget::is_valid_hash`: walk the
hash and the target in parallel, deciding at the first unequal byte and
accepting on full equality. -/
def lexValid : List Nat → List Nat → Bool
  | h :: hs, t :: ts =>
    if h < t then true
    else if h > t then false
    else lexValid hs ts
  | _, _ => true

/-- `HashTarget::is_valid_hash`: hash accepted iff it does not exceed the
target bytewise (equal counts as valid). -/
def HashTarget.is_valid_hash (t : HashTarget) (hash : List Nat) : Bool :=
  lexValid hash t.target

/-- Every entry of a byte list is an actual byte. -/
def allBytes (l : List Nat) : Prop := ∀ b ∈ l, b < 256

instance (l : List Nat) : Decidable (allBytes l) := by
  unfold allBytes; infer_instance

/-- Value of a byte list read as an unsigned big-endian integer. -/
def beVal (l : List Nat) : Nat := l.foldl (fun acc b => acc * 256 + b) 0

theorem beVal_aux (l : List Nat) (acc : Nat) :
    l.foldl (fun acc b => acc * 256 + b) acc = acc * 256 ^ l.length + beVal l := by
  induction l generalizing acc with
  | nil => simp [beVal]
  | cons b l ih =>
    rw [List.foldl_cons, ih (acc * 256 + b), List.length_cons]
    conv_rhs => rw [show beVal (b :: l) =
      List.foldl (fun acc b => acc * 256 + b) (0 * 256 + b) l from rfl]
    rw [ih (0 * 256 + b)]
    ring

theorem beVal_cons (b : Nat) (l : List Nat) :
    beVal (b :: l) = b * 256 ^ l.length + beVal l := by
  conv_lhs => rw [show beVal (b :: l) =
    List.foldl (fun acc b => acc * 256 + b) (0 * 256 + b) l from rfl]
  rw [beVal_aux l (0 * 256 + b)]
  ring

theorem beVal_lt (l : List Nat) (h : allBytes l) : beVal l < 256 ^ l.length := by
  induction l with
  | nil => simp [beVal]
  | cons b t ih =>
    have hb : b < 256 := h b (List.mem_cons_self b t)
    have ht : beVal t < 256 ^ t.length := ih fun x hx => h x (List.mem_cons_of_mem b hx)
    calc beVal (b :: t) = b * 256 ^ t.length + beVal t := beVal_cons b t
      _ < b * 256 ^ t.length + 256 ^ t.length := Nat.add_lt_add_left ht _
      _ = (b + 1) * 256 ^ t.length := by ring
      _ ≤ 256 * 256 ^ t.length := Nat.mul_le_mul_right _ hb
      _ = 256 ^ (b :: t).length := by rw [List.length_cons]; ring

theorem beVal_eq_zero (l : List Nat) (hl : allBytes l) (h : beVal l = 0) :
    l = List.replicate l.length 0 := by
  induction l with
  | nil => simp
  | cons b t ih =>
    rw [beVal_cons] at h
    have hb : b * 256 ^ t.length = 0 := Nat.eq_zero_of_add_eq_zero_right h
    have ht : beVal t = 0 := Nat.eq_zero_of_add_eq_zero_left h
    have hb0 : b = 0 := by
      rcases Nat.mul_eq_zero.mp hb with h' | h'
      · exact h'
      · exact absurd h' (Nat.pos_pow_of_pos _ (by norm_num)).ne'
    subst hb0
    simp only [List.length_cons, List.replicate_succ, List.cons.injEq, true_and]
    exact ih (fun x hx => hl x (List.mem_cons_of_mem _ hx)) ht

theorem lexValid_iff_le (h t : List Nat) (hlen : h.length = t.length)
    (hh : allBytes h) (ht : allBytes t) :
    lexValid h t = true ↔ beVal h ≤ beVal t := by
  induction h generalizing t with
  | nil =>
    cases t with
    | nil => simp [lexValid, beVal]
    | cons b tb => simp at hlen
  | cons a ha ih =>
    cases t with
    | nil => simp at hlen
    | cons b tb =>
      have hlen' : ha.length = tb.length := by simpa using hlen
      have hha : allBytes ha := fun x hx => hh x (List.mem_cons_of_mem _ hx)
      have htb : allBytes tb := fun x hx => ht x (List.mem_cons_of_mem _ hx)
      have hvha : beVal ha < 256 ^ ha.length := beVal_lt ha hha
      have hvtb : beVal tb < 256 ^ tb.length := beVal_lt tb htb
      rw [beVal_cons, beVal_cons, ← hlen']
      rcases Nat.lt_trichotomy a b with hab | hab | hab
      · have hlt : a * 256 ^ ha.length + beVal ha < b * 256 ^ ha.length + beVal tb := by
          calc a * 256 ^ ha.length + beVal ha
              < a * 256 ^ ha.length + 256 ^ ha.length := Nat.add_lt_add_left hvha _
            _ = (a + 1) * 256 ^ ha.length := by ring
            _ ≤ b * 256 ^ ha.length := Nat.mul_le_mul_right _ hab
            _ ≤ b * 256 ^ ha.length + beVal tb := Nat.le_add_right _ _
        simp [lexValid, hab, Nat.le_of_lt hlt]
      · subst hab
        have heq : lexValid (a :: ha) (a :: tb) = lexValid ha tb := by
          simp [lexValid]
        rw [heq, ih tb hlen' hha htb]
        constructor
        · exact fun hle => Nat.add_le_add_left hle _
        · exact fun hle => Nat.le_of_add_le_add_left hle
      · have hlt : b * 256 ^ tb.length + beVal tb < a * 256 ^ tb.length + beVal ha := by
          calc b * 256 ^ tb.length + beVal tb
              < b * 256 ^ tb.length + 256 ^ tb.length := Nat.add_lt_add_left hvtb _
            _ = (b + 1) * 256 ^ tb.length := by ring
            _ ≤ a * 256 ^ tb.length := Nat.mul_le_mul_right _ hab
            _ ≤ a * 256 ^ tb.length + beVal ha := Nat.le_add_right _ _
        have hnv : lexValid (a :: ha) (b :: tb) = false := by
          simp [lexValid, hab, Nat.lt_asymm hab]
        rw [hnv, hlen']
        simp only [Bool.false_eq_true, false_iff, not_le]
        exact hlt

theorem getD_set_spec (l : List Nat) (i j a : Nat) :
    (l.set i a).getD j 0 = if i = j ∧ j < l.length then a else l.getD j 0 := by
  induction l generalizing i j with
  | nil => simp
  | cons b t ih =>
    cases i with
    | zero =>
      cases j with
      | zero => simp
      | succ j => simp
    | succ i =>
      cases j with
      | zero => simp
      | succ j =>
        simp only [List.set_cons_succ, List.getD_cons_succ, List.length_cons]
        rw [ih i j]
        by_cases h : i = j ∧ j < t.length
        · rw [if_pos h, if_pos (by omega : i + 1 = j + 1 ∧ j + 1 < t.length + 1)]
        · rw [if_neg h, if_neg (by omega : ¬(i + 1 = j + 1 ∧ j + 1 < t.length + 1))]

theorem getD_replicate_zero (n j : Nat) : (List.replicate n (0:Nat)).getD j 0 = 0 := by
  induction n generalizing j with
  | zero => simp
  | succ n ih =>
    cases j with
    | zero => simp [List.replicate_succ]
    | succ j => simp [List.replicate_succ, ih]

theorem beVal_replicate_zero (n : Nat) : beVal (List.replicate n 0) = 0 := by
  induction n with
  | zero => simp [beVal]
  | succ n ih => rw [List.replicate_succ, beVal_cons, ih]; ring

theorem shift24_lt (bits : Nat) (hb : bits < u32Mod) : bits >>> 24 < 256 := by
  rw [Nat.shiftRight_eq_div_pow]
  have : bits < 2 ^ 32 := hb
  omega

theorem exponent_eq (bits : Nat) (hb : bits < u32Mod) :
    (bits >>> 24) &&& 0xFF = bits >>> 24 := by
  have h := Nat.and_pow_two_sub_one_eq_mod (bits >>> 24) 8
  norm_num at h
  rw [h, Nat.mod_eq_of_lt (shift24_lt bits hb)]

theorem from_bits_target_eq (bits : Nat) (hb : bits < u32Mod)
    (he3 : 3 ≤ bits >>> 24) (he32 : bits >>> 24 ≤ 32) :
    (HashTarget.from_bits bits).target =
      (((List.replicate 32 0).set (32 - bits >>> 24) (((bits &&& 0xFFFFFF) >>> 16) &&& 0xFF)).set
        (32 - bits >>> 24 + 1) (((bits &&& 0xFFFFFF) >>> 8) &&& 0xFF)).set
        (32 - bits >>> 24 + 2) ((bits &&& 0xFFFFFF) &&& 0xFF) := by
  unfold HashTarget.from_bits
  rw [exponent_eq bits hb]
  rw [if_pos ⟨he3, he32⟩]
  dsimp only
  have h1 : 32 - bits >>> 24 + 1 < 32 := by omega
  have h2 : 32 - bits >>> 24 + 2 < 32 := by omega
  rw [if_pos h1, if_pos h2]

theorem from_bits_zero_out_of_range (bits : Nat)
    (he : (bits >>> 24) &&& 0xFF < 3 ∨ 32 < (bits >>> 24) &&& 0xFF) :
    (HashTarget.from_bits bits).target = List.replicate 32 0 := by
  unfold HashTarget.from_bits
  rw [if_neg (by omega)]

/-- C6 (amended): for a `u32` value `bits` with exponent `e = bits >>> 24` and
mantissa `m = bits &&& 0xFFFFFF`, `from_bits` places the three mantissa bytes
MSB-first at offsets `32-e`, `32-e+1`, `32-e+2` of an otherwise all-zero
32-byte buffer when `3 ≤ e ≤ 32`; when `e` is outside `3..=32` the decoded
target is all-zero and a hash satisfies it exactly when the hash itself is
all-zero (equality counts as valid, so the all-zero hash does satisfy it);
and `is_valid_hash` accepts a hash iff it is at most the target as an
unsigned big-endian integer. -/
theorem hash_target_compact_decoding (bits : Nat) (hb : bits < u32Mod) :
    (∀ i : Nat, i < 32 → 3 ≤ bits >>> 24 → bits >>> 24 ≤ 32 →
      (HashTarget.from_bits bits).target.getD i 0 =
        if i = 32 - bits >>> 24 then ((bits &&& 0xFFFFFF) >>> 16) &&& 0xFF
        else if i = 32 - bits >>> 24 + 1 then ((bits &&& 0xFFFFFF) >>> 8) &&& 0xFF
        else if i = 32 - bits >>> 24 + 2 then (bits &&& 0xFFFFFF) &&& 0xFF
        else 0) ∧
    (bits >>> 24 < 3 ∨ 32 < bits >>> 24 →
      (HashTarget.from_bits bits).target = List.replicate 32 0 ∧
      ∀ hash : List Nat, hash.length = 32 → allBytes hash →
        ((HashTarget.from_bits bits).is_valid_hash hash = true ↔
          hash = List.replicate 32 0)) ∧
    (∀ tgt hash : List Nat, hash.length = 32 → tgt.length = 32 →
      allBytes hash → allBytes tgt →
      (HashTarget.is_valid_hash ⟨tgt⟩ hash = true ↔ beVal hash ≤ beVal tgt)) := by
  refine ⟨?_, ?_, ?_⟩
  · intro i hi he3 he32
    rw [from_bits_target_eq bits hb he3 he32]
    rw [getD_set_spec, getD_set_spec, getD_set_spec]
    simp only [List.length_set, List.length_replicate, getD_replicate_zero]
    split_ifs <;> first | rfl | omega
  · intro he
    have hz : (HashTarget.from_bits bits).target = List.replicate 32 0 := by
      apply from_bits_zero_out_of_range
      rw [exponent_eq bits hb]
      exact he
    refine ⟨hz, fun hash hlen hbytes => ?_⟩
    unfold HashTarget.is_valid_hash
    rw [hz]
    have hrep : allBytes (List.replicate 32 0) := by decide
    have hlenr : hash.length = (List.replicate 32 (0:Nat)).length := by simp [hlen]
    rw [lexValid_iff_le hash (List.replicate 32 0) hlenr hbytes hrep]
    rw [beVal_replicate_zero]
    constructor
    · intro hle
      have h0 : beVal hash = 0 := Nat.le_zero.mp hle
      have := beVal_eq_zero hash hbytes h0
      rwa [hlen] at this
    · intro hrepl
      rw [hrepl, beVal_replicate_zero]
  · intro tgt hash hlh hlt hbh hbt
    unfold HashTarget.is_valid_hash
    exact lexValid_iff_le hash tgt (by rw [hlh, hlt]) hbh hbt

/-- C6 counterexample: the claim asserts that a `bits` value whose exponent
lies outside `3..=32` yields a target no hash satisfies; but for `bits = 0`
(exponent 0) the all-zero hash equals the all-zero target and equality counts
as valid. -/
theorem hash_target_zero_counterexample :
    (0:Nat) >>> 24 < 3 ∧
    (HashTarget.from_bits 0).is_valid_hash (List.replicate 32 0) = true := by
  decide

/-- Witness for C6 at the standard Bitcoin compact value `0x1d00ffff`. -/
theorem hash_target_compact_decoding_witness :
    (HashTarget.from_bits 0x1d00ffff).target.getD 4 0 = 0xFF ∧
    (HashTarget.is_valid_hash ⟨List.replicate 32 0⟩ (List.replicate 32 0) = true ↔
      beVal (List.replicate 32 0) ≤ beVal (List.replicate 32 0)) := by
  constructor
  · have h := (hash_target_compact_decoding 0x1d00ffff (by decide)).1 4
      (by decide) (by decide) (by decide)
    rw [h]
    decide
  · exact (hash_target_compact_decoding 0x1d00ffff (by decide)).2.2
      (List.replicate 32 0) (List.replicate 32 0) (by decide) (by decide)
      (by decide) (by decide)

/-- `u32::saturating_add(1)`, the nonce advance of the worker loop. -/
def saturatingSucc (n : Nat) : Nat := min (n + 1) u32Max

/-- Worker loop of `MiningCoordinator::mining_thread`, modelled with the
running flag held `true` throughout.  `fuel` is an upper bound on the
iteration count (the wrapper passes `end_nonce - nonce`, which is exactly
the number of iterations the source loop performs, since the guard is
`nonce < end_nonce` and each step advances the nonce by one).  `batch` is
the local batch counter; it flushes into the returned total on reaching
1000 and once more after the loop.  The result packs (shares found, total
hashes flushed, visited nonces in order). -/
def miningLoop (header : BlockHeader) (target : HashTarget) :
    Nat → Nat → Nat → Nat → Nat × Nat × List Nat
  | 0, _, _, batch => (0, if 0 < batch then batch else 0, [])
  | fuel + 1, nonce, endNonce, batch =>
    if nonce < endNonce then
      let hash := double_sha256 (BlockHeader.serialize { header with nonce := nonce })
      let shares := if target.is_valid_hash hash then 1 else 0
      let batch1 := batch + 1
      let flushed := if 1000 ≤ batch1 then batch1 else 0
      let batch2 := if 1000 ≤ batch1 then 0 else batch1
      let rest := miningLoop header target fuel (saturatingSucc nonce) endNonce batch2
      (shares + rest.1, flushed + rest.2.1, nonce :: rest.2.2)
    else (0, if 0 < batch then batch else 0, [])

/-- `MiningCoordinator::mining_thread` with the running flag always set:
start at `start_nonce`, loop while `nonce < end_nonce`, flush the final
batch.  Inputs are reduced modulo `2 ^ 32` as they are `u32` values. -/
def mining_thread (header : BlockHeader) (target : HashTarget)
    (start_nonce end_nonce : Nat) : Nat × Nat × List Nat :=
  miningLoop header target (end_nonce % u32Mod - start_nonce % u32Mod)
    (start_nonce % u32Mod) (end_nonce % u32Mod) 0

theorem miningLoop_spec (header : BlockHeader) (target : HashTarget) :
    ∀ fuel nonce batch, ∀ endNonce : Nat, endNonce ≤ u32Max → fuel = endNonce - nonce →
    miningLoop header target fuel nonce endNonce batch =
      ((List.range' nonce (endNonce - nonce)).countP (fun n =>
          target.is_valid_hash (double_sha256 (BlockHeader.serialize { header with nonce := n }))),
       batch + (endNonce - nonce),
       List.range' nonce (endNonce - nonce)) := by
  intro fuel
  induction fuel with
  | zero =>
    intro nonce batch endNonce hle hfuel
    have h0 : endNonce - nonce = 0 := hfuel.symm
    rw [miningLoop, h0]
    simp only [List.range'_zero, List.countP_nil, Nat.add_zero]
    by_cases hb : 0 < batch
    · rw [if_pos hb]
    · have hb0 : batch = 0 := by omega
      rw [if_neg hb, hb0]
  | succ fuel ih =>
    intro nonce batch endNonce hle hfuel
    have hlt : nonce < endNonce := by omega
    have hs1 : nonce + 1 ≤ u32Max := by omega
    have hsucc : saturatingSucc nonce = nonce + 1 := Nat.min_eq_left hs1
    have hfuel' : fuel = endNonce - (nonce + 1) := by omega
    have hrange : endNonce - nonce = (endNonce - (nonce + 1)) + 1 := by omega
    rw [miningLoop, if_pos hlt]
    dsimp only
    rw [hsucc, ih (nonce + 1) _ endNonce hle hfuel', hrange, List.range'_succ,
      List.countP_cons]
    simp only [Prod.mk.injEq]
    refine ⟨Nat.add_comm _ _, ?_, trivial⟩
    by_cases hflush : 1000 ≤ batch + 1
    · rw [if_pos hflush, if_pos hflush]
      omega
    · rw [if_neg hflush, if_neg hflush]
      omega

/-- C1 (amended): with the running flag held set, a worker with assigned
range [start_nonce, end_nonce] visits exactly the nonces of the half-open
range [start_nonce, end_nonce) — `end_nonce` itself is never tried, because
the loop guard is the strict comparison `nonce < end_nonce` — writing each
visited nonce into `header.nonce`, hashing the 80-byte serialization with
double SHA-256, and counting one share exactly for the visited nonces whose
hash meets the target; the nonce advances by saturating increment (which
never stalls below `end_nonce ≤ u32::MAX`), the loop stops when the nonce
reaches `end_nonce`, and every visited nonce is eventually flushed into the
shared hash total. -/
theorem mining_thread_spec (header : BlockHeader) (target : HashTarget)
    (s e : Nat) (hs : s < u32Mod) (he : e < u32Mod) :
    mining_thread header target s e =
      ((List.range' s (e - s)).countP (fun n =>
          target.is_valid_hash (double_sha256 (BlockHeader.serialize { header with nonce := n }))),
       e - s,
       List.range' s (e - s)) ∧
    e ∉ List.range' s (e - s) ∧
    ∀ n, n ∈ List.range' s (e - s) ↔ s ≤ n ∧ n < e := by
  have hmem : ∀ n : Nat, n ∈ List.range' s (e - s) ↔ s ≤ n ∧ n < e := by
    intro n
    rw [List.mem_range'_1]
    omega
  refine ⟨?_, ?_, hmem⟩
  · unfold mining_thread
    rw [Nat.mod_eq_of_lt hs, Nat.mod_eq_of_lt he]
    have hle : e ≤ u32Max := by
      have h32 : u32Max + 1 = u32Mod := by decide
      omega
    rw [miningLoop_spec header target (e - s) s 0 e hle rfl, Nat.zero_add]
  · intro hcon
    exact absurd ((hmem e).mp hcon) (by omega)

/-- The all-zero block header, used as a concrete test header. -/
def headerZero : BlockHeader :=
  ⟨0, List.replicate 32 0, List.replicate 32 0, 0, 0, 0⟩

/-- C1 counterexample: the claim says the worker visits every nonce of the
inclusive range, `end_nonce` included.  With start_nonce 0 and end_nonce 1
the loop visits only nonce 0: nonce 1 — the assigned `end_nonce` — is never
hashed. -/
theorem mining_thread_end_nonce_counterexample :
    (mining_thread headerZero (HashTarget.from_bits 0x1d00ffff) 0 1).2.2 = [0] ∧
    (1:Nat) ∉ (mining_thread headerZero (HashTarget.from_bits 0x1d00ffff) 0 1).2.2 := by
  decide

/-- Witness for C1: the amended loop specification evaluated on the
two-nonce range [0, 2). -/
theorem mining_thread_spec_witness :
    (0:Nat) < u32Mod ∧ (2:Nat) < u32Mod ∧
    mining_thread headerZero (HashTarget.from_bits 0x1d00ffff) 0 2 =
      ((List.range' 0 2).countP (fun n =>
          (HashTarget.from_bits 0x1d00ffff).is_valid_hash
            (double_sha256 (BlockHeader.serialize { headerZero with nonce := n }))),
       2, List.range' 0 2) :=
  ⟨by decide, by decide,
    (mining_thread_spec headerZero (HashTarget.from_bits 0x1d00ffff) 0 2
      (by decide) (by decide)).1⟩

/-- `nonce_range` computed by `MiningCoordinator::start`: `u32::MAX /
thread_count`.  The source divides `u32` values; for `1 ≤ T ≤ u32::MAX`
(hypotheses of every theorem below) the `usize`-to-`u32` cast is the
identity and no intermediate overflows, so plain `Nat` arithmetic is the
faithful model. -/
def nonce_range (threadCount : Nat) : Nat := u32Max / threadCount

/-- `start_nonce` assigned to worker `i` by `MiningCoordinator::start`:
`thread_id * nonce_range`. -/
def worker_start_nonce (threadCount i : Nat) : Nat := i * nonce_range threadCount

/-- `end_nonce` assigned to worker `i`: `u32::MAX` for the last worker,
`start_nonce + nonce_range - 1` otherwise. -/
def worker_end_nonce (threadCount i : Nat) : Nat :=
  if i = threadCount - 1 then u32Max
  else worker_start_nonce threadCount i + nonce_range threadCount - 1

/-- C2: for every thread count `1 ≤ T ≤ u32::MAX`, `start` assigns worker
`i < T-1` the range `[i*R, i*R + R - 1]` with `R = u32::MAX / T` and the
last worker the range `[(T-1)*R, u32::MAX]`; the ranges are pairwise
disjoint, they cover `[0, u32::MAX]` exactly, every bound fits in `u32`,
and for `T = 4` the four ranges are the claimed constants. -/
theorem nonce_partition (T : Nat) (h1 : 1 ≤ T) (h2 : T ≤ u32Max) :
    (∀ i, worker_start_nonce T i = i * (u32Max / T)) ∧
    (∀ i, i + 1 < T → worker_end_nonce T i = i * (u32Max / T) + (u32Max / T) - 1) ∧
    worker_end_nonce T (T - 1) = u32Max ∧
    (∀ i, i < T → worker_start_nonce T i ≤ worker_end_nonce T i ∧
      worker_end_nonce T i ≤ u32Max) ∧
    (∀ i j n, i < T → j < T → i ≠ j →
      worker_start_nonce T i ≤ n → n ≤ worker_end_nonce T i →
      ¬(worker_start_nonce T j ≤ n ∧ n ≤ worker_end_nonce T j)) ∧
    (∀ n, n ≤ u32Max → ∃ i, i < T ∧ worker_start_nonce T i ≤ n ∧
      n ≤ worker_end_nonce T i) ∧
    (worker_start_nonce 4 0 = 0 ∧ worker_end_nonce 4 0 = 0x3FFFFFFE ∧
     worker_start_nonce 4 1 = 0x3FFFFFFF ∧ worker_end_nonce 4 1 = 0x7FFFFFFD ∧
     worker_start_nonce 4 2 = 0x7FFFFFFE ∧ worker_end_nonce 4 2 = 0xBFFFFFFC ∧
     worker_start_nonce 4 3 = 0xBFFFFFFD ∧ worker_end_nonce 4 3 = 0xFFFFFFFF) := by
  have hT0 : 0 < T := h1
  have hR : 1 ≤ u32Max / T := (Nat.one_le_div_iff hT0).mpr h2
  have hTR : T * (u32Max / T) ≤ u32Max := by
    rw [Nat.mul_comm]
    exact Nat.div_mul_le_self u32Max T
  have hstart : ∀ i, worker_start_nonce T i = i * (u32Max / T) := fun i => rfl
  have hkey : ∀ i j, i < j → j < T →
      worker_end_nonce T i < worker_start_nonce T j := by
    intro i j hij hj
    have hiT : i ≠ T - 1 := by omega
    rw [worker_end_nonce, if_neg hiT, hstart i, hstart j]
    have hmono : (i + 1) * (u32Max / T) ≤ j * (u32Max / T) :=
      Nat.mul_le_mul_right _ (by omega)
    have hsm : (i + 1) * (u32Max / T) = i * (u32Max / T) + u32Max / T := by ring
    unfold nonce_range
    omega
  have hstart_le : ∀ i, i < T → worker_start_nonce T i ≤ u32Max := by
    intro i hi
    rw [hstart i]
    calc i * (u32Max / T) ≤ T * (u32Max / T) := Nat.mul_le_mul_right _ (by omega)
      _ ≤ u32Max := hTR
  have hbounds : ∀ i, i < T → worker_start_nonce T i ≤ worker_end_nonce T i ∧
      worker_end_nonce T i ≤ u32Max := by
    intro i hi
    by_cases hiT : i = T - 1
    · rw [worker_end_nonce, if_pos hiT]
      exact ⟨hstart_le i hi, Nat.le_refl _⟩
    · rw [worker_end_nonce, if_neg hiT, hstart i]
      have hi1 : i + 1 < T := by omega
      have h1le : worker_end_nonce T i < worker_start_nonce T (T - 1) :=
        hkey i (T - 1) (by omega) (by omega)
      rw [worker_end_nonce, if_neg hiT, hstart i] at h1le
      have h2le : worker_start_nonce T (T - 1) ≤ u32Max := hstart_le (T - 1) (by omega)
      constructor
      · unfold nonce_range
        omega
      · omega
  refine ⟨hstart, ?_, ?_, hbounds, ?_, ?_, ?_⟩
  · intro i hi
    have hiT : i ≠ T - 1 := by omega
    rw [worker_end_nonce, if_neg hiT, hstart i]
    rfl
  · rw [worker_end_nonce, if_pos rfl]
  · intro i j n hi hj hij hsi hei hcon
    rcases hcon with ⟨hsj, hej⟩
    rcases Nat.lt_or_ge i j with hlt | hge
    · have := hkey i j hlt hj
      omega
    · have hjilt : j < i := by omega
      have := hkey j i hjilt hi
      omega
  · intro n hn
    set R := u32Max / T with hRdef
    by_cases hcase : n / R < T - 1
    · refine ⟨n / R, by omega, ?_, ?_⟩
      · rw [hstart]
        exact Nat.div_mul_le_self n R
      · have hne : n / R ≠ T - 1 := by omega
        rw [worker_end_nonce, if_neg hne, hstart]
        have hdm := Nat.div_add_mod n R
        have hm : n % R < R := Nat.mod_lt n (by omega)
        have hmul : n / R * R = R * (n / R) := Nat.mul_comm _ _
        unfold nonce_range
        rw [← hRdef]
        omega
    · refine ⟨T - 1, by omega, ?_, ?_⟩
      · rw [hstart]
        have hge : T - 1 ≤ n / R := by omega
        calc (T - 1) * (u32Max / T) = (T - 1) * R := by rw [hRdef]
          _ ≤ n / R * R := Nat.mul_le_mul_right _ hge
          _ ≤ n := Nat.div_mul_le_self n R
      · rw [worker_end_nonce, if_pos rfl]
        exact hn
  · refine ⟨?_, ?_, ?_, ?_, ?_, ?_, ?_, ?_⟩ <;> decide

/-- Witness for C2 at thread count 4: nonce 5 is covered by some worker. -/
theorem nonce_partition_witness :
    (1:Nat) ≤ 4 ∧ (4:Nat) ≤ u32Max ∧
    (∃ i, i < 4 ∧ worker_start_nonce 4 i ≤ 5 ∧ (5:Nat) ≤ worker_end_nonce 4 i) :=
  ⟨by decide, by decide,
    (nonce_partition 4 (by decide) (by decide)).2.2.2.2.2.1 5 (by decide)⟩

/-- Smallest doubling count `s` with `q * 2^52 ≤ p * 2^s`, found by a
fuel-bounded scan (fuel 200 covers every exponent this development's
value range can produce). -/
def findScaleUp : Nat → Nat → Nat → Nat → Nat
  | 0, _, _, acc => acc
  | fuel + 1, p, q, acc =>
    if q * 2 ^ 52 ≤ p then acc else findScaleUp fuel (p * 2) q (acc + 1)

/-- Smallest halving count `d` with `p < q * 2^d * 2^53`, found by a
fuel-bounded scan. -/
def findScaleDown : Nat → Nat → Nat → Nat → Nat
  | 0, _, _, acc => acc
  | fuel + 1, p, q, acc =>
    if p < q * 2 ^ 53 then acc else findScaleDown fuel p (q * 2) (acc + 1)

/-- IEEE binary64 round-to-nearest-even of the nonnegative rational
`p / q` (with `q > 0`), as an exact fraction `(numerator, denominator)`.
The significand is scaled into `[2^52, 2^53)`, the remainder decides the
rounding with ties to even.  The exponent is unbounded, which agrees with
binary64 on this development's whole value range (all nonzero values lie
far inside the normal range; no overflow below `2^1024`). -/
def roundRat53 (p q : Nat) : Nat × Nat :=
  if p = 0 then (0, 1)
  else
    let s := findScaleUp 200 p q 0
    let d := findScaleDown 200 (p * 2 ^ s) q 0
    let n := p * 2 ^ s
    let e := q * 2 ^ d
    let m0 := n / e
    let r := n % e
    let m := if 2 * r < e then m0
      else if e < 2 * r then m0 + 1
      else if m0 % 2 = 0 then m0 else m0 + 1
    (m * 2 ^ d, 2 ^ s)

/-- Auto branch of `MiningConfig::effective_thread_count`:
`(available_cores as f64 * (max_cpu_percentage as f64 / 100.0)) as usize`.
Each cast and arithmetic step is one binary64 rounding (`pct as f64` is
exact for `u8`; the division and the product round to nearest-even); the
final `as usize` truncates the nonnegative value toward zero, saturating
at `usize::MAX`. -/
def effAuto (maxCpuPct cores : Nat) : Nat :=
  let q := roundRat53 maxCpuPct 100
  let cf := roundRat53 cores 1
  let prod := roundRat53 (cf.1 * q.1) (cf.2 * q.2)
  min (prod.1 / prod.2) (2 ^ 64 - 1)

/-- `MiningConfig::effective_thread_count`: the explicit count clamped to
the available cores, or the f64 auto computation floored at 1. -/
def effective_thread_count (threadCount maxCpuPct cores : Nat) : Nat :=
  if 0 < threadCount then min threadCount cores
  else max (effAuto maxCpuPct cores) 1

/-- C7 (amended): the explicit thread count is clamped to the core count;
the auto branch truncates the IEEE f64 product
`cores as f64 * (max_cpu_percentage as f64 / 100.0)` toward zero — not
the ceiling of the exact ratio (3 cores at 50 percent give 1, not
⌈1.5⌉ = 2), and because of binary64 rounding it can even land one below
the exact ratio's floor (100 cores at 29 percent give 28, at 57 percent
56, though the exact ratios are 29 and 57) — and floors the result at 1;
the test-suite anchor 8 cores at 50 percent gives 4; for any positive
core count the result is at least 1. -/
theorem effective_thread_count_spec (tc pct c : Nat) (hc : 1 ≤ c) :
    (0 < tc → effective_thread_count tc pct c = min tc c) ∧
    (tc = 0 → effective_thread_count tc pct c = max (effAuto pct c) 1) ∧
    1 ≤ effective_thread_count tc pct c ∧
    effAuto 50 3 = 1 ∧ effAuto 50 8 = 4 ∧ effAuto 25 8 = 2 ∧
    effAuto 29 100 = 28 ∧ effAuto 57 100 = 56 := by
  refine ⟨?_, ?_, ?_, by decide, by decide, by decide, by decide, by decide⟩
  · intro h
    unfold effective_thread_count
    rw [if_pos h]
  · intro h
    unfold effective_thread_count
    rw [if_neg (by omega)]
  · unfold effective_thread_count
    by_cases h : 0 < tc
    · rw [if_pos h]
      omega
    · rw [if_neg h]
      omega

/-- C7 counterexample: the claim rounds the auto branch up, so at 3 cores
and 50 percent it predicts ⌈1.5⌉ = 2; the source truncates `3.0 * 0.5 =
1.5` (exact in binary64) to 1. -/
theorem effective_thread_count_counterexample :
    effective_thread_count 0 50 3 = 1 ∧ (3 * 50 + 99) / 100 = 2 ∧
    effective_thread_count 0 50 3 ≠ max ((3 * 50 + 99) / 100) 1 := by decide

/-- Witness for C7 at an explicit thread count of 2 on 8 cores. -/
theorem effective_thread_count_spec_witness :
    ((1:Nat) ≤ 8) ∧ effective_thread_count 2 50 8 = min 2 8 ∧
    1 ≤ effective_thread_count 2 50 8 ∧ effAuto 29 100 = 28 :=
  ⟨by decide,
   (effective_thread_count_spec 2 50 8 (by decide)).1 (by decide),
   (effective_thread_count_spec 2 50 8 (by decide)).2.2.1,
   (effective_thread_count_spec 2 50 8 (by decide)).2.2.2.2.2.2.1⟩

/-- `MiningError` of `errors.rs`; each variant carries its message. -/
inductive MiningError where
  | hardwareDetection (msg : String)
  | poolConnection (msg : String)
  | stratumProtocol (msg : String)
  | resourceAllocation (msg : String)
  | coordinator (msg : String)
  | configuration (msg : String)
  | hashComputation (msg : String)
deriving DecidableEq

/-- Whether an error is the `Configuration` variant. -/
def MiningError.isConfiguration : MiningError → Bool
  | .configuration _ => true
  | _ => false

/-- `str::strip_prefix` on character lists: `stripStart pat s` returns the
remainder of `s` after the literal pattern `pat`, or `none`. -/
def stripStart : List Char → List Char → Option (List Char)
  | [], rest => some rest
  | _ :: _, [] => none
  | p :: ps, c :: cs => if p = c then stripStart ps cs else none

/-- `str::split(':')` on a character list: the groups between colons, in
order, empty groups included. -/
def splitColon : List Char → List (List Char)
  | [] => [[]]
  | c :: rest =>
    match splitColon rest with
    | [] => [[]]
    | g :: gs => if c = ':' then [] :: g :: gs else (c :: g) :: gs

/-- Decimal digit recognition of Rust's integer parser. -/
def digitVal (c : Char) : Option Nat :=
  if '0' ≤ c ∧ c ≤ '9' then some (c.toNat - '0'.toNat) else none

/-- Accumulate the decimal value of a digit run; `none` at the first
non-digit. -/
def digitsValAux : Nat → List Char → Option Nat
  | acc, [] => some acc
  | acc, c :: cs =>
    match digitVal c with
    | some d => digitsValAux (acc * 10 + d) cs
    | none => none

/-- Value of a nonempty all-digit character list; `none` otherwise. -/
def digitsVal : List Char → Option Nat
  | [] => none
  | cs => digitsValAux 0 cs

/-- Drop the optional leading `+` sign accepted by Rust's unsigned
integer parser. -/
def stripPlus (cs : List Char) : List Char :=
  match cs with
  | c :: rest => if c = '+' then rest else cs
  | [] => cs

/-- `u16::from_str` as used on the port: an optional leading `+`, then at
least one decimal digit, with overflow past `u16::MAX` rejected. -/
def parseU16 (cs : List Char) : Option Nat :=
  match digitsVal (stripPlus cs) with
  | some v => if v ≤ 65535 then some v else none
  | none => none

/-- Split of the stripped remainder into host and port as done by
`parse_stratum_url`: exactly one colon, then a `u16` port. -/
def parseHostPort (stripped : List Char) : Except MiningError (List Char × Nat) :=
  match splitColon stripped with
  | [host, port] =>
    match parseU16 port with
    | some p => .ok (host, p)
    | none => .error (.configuration "Invalid port number")
  | _ => .error (.configuration "Invalid stratum URL format")

/-- `parse_stratum_url` of `stratum.rs`: strip `stratum+tcp://`, else
`stratum://`, else fail; then split on `:` and parse the port. -/
def parse_stratum_url (url : List Char) : Except MiningError (List Char × Nat) :=
  match stripStart "stratum+tcp://".toList url with
  | some stripped => parseHostPort stripped
  | none =>
    match stripStart "stratum://".toList url with
    | some stripped => parseHostPort stripped
    | none => .error (.configuration "Invalid stratum URL prefix")

deriving instance DecidableEq for Except

example : parse_stratum_url "stratum+tcp://pool.example.com:3333".toList =
    .ok ("pool.example.com".toList, 3333) := by decide

example : (parse_stratum_url "http://invalid.com".toList).isOk = false := by decide

theorem stripStart_some (pat url rest : List Char)
    (h : stripStart pat url = some rest) : url = pat ++ rest := by
  induction pat generalizing url with
  | nil => simpa [stripStart] using h
  | cons p ps ih =>
    cases url with
    | nil => simp [stripStart] at h
    | cons c cs =>
      by_cases hpc : p = c
      · rw [stripStart, if_pos hpc] at h
        subst hpc
        simpa using ih cs h
      · rw [stripStart, if_neg hpc] at h
        simp at h

theorem stripStart_append (pat rest : List Char) :
    stripStart pat (pat ++ rest) = some rest := by
  induction pat with
  | nil => simp [stripStart]
  | cons p ps ih => simp [stripStart, ih]

theorem splitColon_ne_nil (s : List Char) : splitColon s ≠ [] := by
  induction s with
  | nil => simp [splitColon]
  | cons c rest ih =>
    rw [splitColon]
    rcases h : splitColon rest with _ | ⟨g, gs⟩
    · simp
    · by_cases hc : c = ':' <;> simp [hc]

theorem splitColon_single (s b : List Char)
    (h : splitColon s = [b]) : s = b ∧ ':' ∉ b := by
  induction s generalizing b with
  | nil =>
    rw [splitColon] at h
    simp only [List.cons.injEq, and_true] at h
    subst h
    exact ⟨rfl, by simp⟩
  | cons c rest ih =>
    rw [splitColon] at h
    rcases hs : splitColon rest with _ | ⟨g, gs⟩
    · exact absurd hs (splitColon_ne_nil rest)
    · rw [hs] at h
      dsimp only at h
      by_cases hc : c = ':'
      · rw [if_pos hc] at h
        simp at h
      · rw [if_neg hc] at h
        simp only [List.cons.injEq] at h
        obtain ⟨hb, hgs⟩ := h
        have hrest := ih g (by rw [hs, hgs])
        refine ⟨?_, ?_⟩
        · rw [← hb, hrest.1]
        · rw [← hb]
          intro hmem
          rcases List.mem_cons.mp hmem with h' | h'
          · exact hc h'.symm
          · exact hrest.2 h'

theorem splitColon_pair (s : List Char) : ∀ a b : List Char,
    splitColon s = [a, b] → s = a ++ ':' :: b ∧ ':' ∉ a ∧ ':' ∉ b := by
  induction s with
  | nil =>
    intro a b h
    rw [splitColon] at h
    simp at h
  | cons c rest ih =>
    intro a b h
    rw [splitColon] at h
    rcases hs : splitColon rest with _ | ⟨g, gs⟩
    · exact absurd hs (splitColon_ne_nil rest)
    · rw [hs] at h
      dsimp only at h
      by_cases hc : c = ':'
      · rw [if_pos hc] at h
        simp only [List.cons.injEq] at h
        obtain ⟨ha, hg, hgs⟩ := h
        have hrest := splitColon_single rest b (by rw [hs, hg, hgs])
        subst hc
        refine ⟨?_, ?_, hrest.2⟩
        · rw [← ha, hrest.1]
          simp
        · rw [← ha]
          simp
      · rw [if_neg hc] at h
        simp only [List.cons.injEq] at h
        obtain ⟨ha, hgs⟩ := h
        have hrest := ih g b (by rw [hs, hgs])
        refine ⟨?_, ?_, hrest.2.2⟩
        · rw [← ha, List.cons_append, hrest.1]
        · rw [← ha]
          intro hmem
          rcases List.mem_cons.mp hmem with h' | h'
          · exact hc h'.symm
          · exact hrest.2.1 h'

theorem splitColon_no_colon (b : List Char) (hb : ':' ∉ b) : splitColon b = [b] := by
  induction b with
  | nil => rfl
  | cons c cs ih =>
    have hc : ¬(c = ':') := fun h => hb (h ▸ List.mem_cons_self c cs)
    rw [splitColon, ih (fun h => hb (List.mem_cons_of_mem _ h))]
    dsimp only
    rw [if_neg hc]

theorem splitColon_of_append (a b : List Char) (ha : ':' ∉ a) (hb : ':' ∉ b) :
    splitColon (a ++ ':' :: b) = [a, b] := by
  induction a with
  | nil =>
    simp only [List.nil_append]
    rw [splitColon, splitColon_no_colon b hb]
    dsimp only
    rw [if_pos rfl]
  | cons c cs ih =>
    have hc : ¬(c = ':') := fun h => ha (h ▸ List.mem_cons_self c cs)
    simp only [List.cons_append]
    rw [splitColon, ih (fun h => ha (List.mem_cons_of_mem _ h))]
    dsimp only
    rw [if_neg hc]


theorem digitsValAux_digits (cs : List Char) :
    ∀ acc v, digitsValAux acc cs = some v → ∀ c ∈ cs, '0' ≤ c ∧ c ≤ '9' := by
  induction cs with
  | nil =>
    intro acc v _ c hc
    simp at hc
  | cons c0 cs ih =>
    intro acc v h c hc
    rw [digitsValAux] at h
    rcases hd : digitVal c0 with _ | d
    · rw [hd] at h
      simp at h
    · rw [hd] at h
      dsimp only at h
      rcases List.mem_cons.mp hc with rfl | hmem
      · by_cases hb : '0' ≤ c ∧ c ≤ '9'
        · exact hb
        · rw [digitVal, if_neg hb] at hd
          cases hd
      · exact ih _ _ h c hmem

theorem digitsVal_digits (cs : List Char) (v : Nat) (h : digitsVal cs = some v) :
    ∀ c ∈ cs, '0' ≤ c ∧ c ≤ '9' := by
  cases cs with
  | nil => intro c hc; simp at hc
  | cons c0 rest =>
    exact digitsValAux_digits _ _ _ h

theorem parseU16_no_colon (cs : List Char) (v : Nat) (h : parseU16 cs = some v) :
    ':' ∉ cs := by
  unfold parseU16 at h
  rcases hdv : digitsVal (stripPlus cs) with _ | w
  · rw [hdv] at h
    simp at h
  · have hdig := digitsVal_digits _ _ hdv
    intro hmem
    cases cs with
    | nil => simp at hmem
    | cons x xs =>
      by_cases hx : x = '+'
      · subst hx
        have hbody : stripPlus ('+' :: xs) = xs := by
          rw [stripPlus, if_pos rfl]
        rcases List.mem_cons.mp hmem with hcp | hcm
        · exact absurd hcp (by decide)
        · rw [hbody] at hdig
          exact absurd (hdig ':' hcm).2 (by decide)
      · have hbody : stripPlus (x :: xs) = x :: xs := by
          rw [stripPlus, if_neg hx]
        rw [hbody] at hdig
        exact absurd (hdig ':' hmem).2 (by decide)

theorem parseHostPort_ok (s host : List Char) (p : Nat)
    (h : parseHostPort s = .ok (host, p)) :
    ∃ portCs, s = host ++ ':' :: portCs ∧ ':' ∉ host ∧ parseU16 portCs = some p := by
  unfold parseHostPort at h
  rcases hsc : splitColon s with _ | ⟨a, _ | ⟨b, _ | ⟨c, cs⟩⟩⟩
  all_goals rw [hsc] at h
  · simp at h
  · simp at h
  · dsimp only at h
    rcases hp : parseU16 b with _ | v
    · rw [hp] at h
      simp at h
    · rw [hp] at h
      dsimp only at h
      obtain ⟨ha, hv⟩ : a = host ∧ v = p := by simpa using h
      obtain ⟨hsplit, hna, hnb⟩ := splitColon_pair s a b hsc
      subst ha
      subst hv
      exact ⟨b, hsplit, hna, hp⟩
  · simp at h

theorem parseHostPort_error (s : List Char) (e : MiningError)
    (h : parseHostPort s = .error e) : e.isConfiguration = true := by
  unfold parseHostPort at h
  rcases hsc : splitColon s with _ | ⟨a, _ | ⟨b, _ | ⟨c, cs⟩⟩⟩
  all_goals rw [hsc] at h
  · dsimp only at h
    injection h with h'
    rw [← h']
    rfl
  · dsimp only at h
    injection h with h'
    rw [← h']
    rfl
  · dsimp only at h
    rcases hp : parseU16 b with _ | v
    · rw [hp] at h
      dsimp only at h
      injection h with h'
      rw [← h']
      rfl
    · rw [hp] at h
      simp at h
  · dsimp only at h
    injection h with h'
    rw [← h']
    rfl

theorem stripStart_p1_of_p2 (rest : List Char) :
    stripStart "stratum+tcp://".toList ("stratum://".toList ++ rest) = none := rfl

/-- C9 (amended): `parse_stratum_url` succeeds, returning host and port,
exactly when the input is `stratum+tcp://` or `stratum://` followed by a
colon-free host, a single colon, and a port accepted by `u16` parsing — a
nonempty run of decimal digits with an optional leading `+` whose value
is in 0..=65535 (so port 0 is accepted, where the claim required
1..=65535) — and every failure is reported as a Configuration error. -/
theorem parse_stratum_url_spec (url : List Char) :
    (∀ host p, parse_stratum_url url = .ok (host, p) ↔
      ∃ portCs, (url = "stratum+tcp://".toList ++ (host ++ ':' :: portCs) ∨
          url = "stratum://".toList ++ (host ++ ':' :: portCs)) ∧
        ':' ∉ host ∧ parseU16 portCs = some p) ∧
    (∀ e, parse_stratum_url url = .error e → e.isConfiguration = true) := by
  constructor
  · intro host p
    constructor
    · intro h
      unfold parse_stratum_url at h
      rcases h1 : stripStart "stratum+tcp://".toList url with _ | s1
      · rw [h1] at h
        dsimp only at h
        rcases h2 : stripStart "stratum://".toList url with _ | s2
        · rw [h2] at h
          simp at h
        · rw [h2] at h
          dsimp only at h
          obtain ⟨portCs, hsplit, hna, hp⟩ := parseHostPort_ok s2 host p h
          refine ⟨portCs, Or.inr ?_, hna, hp⟩
          rw [stripStart_some _ _ _ h2, hsplit]
      · rw [h1] at h
        dsimp only at h
        obtain ⟨portCs, hsplit, hna, hp⟩ := parseHostPort_ok s1 host p h
        refine ⟨portCs, Or.inl ?_, hna, hp⟩
        rw [stripStart_some _ _ _ h1, hsplit]
    · rintro ⟨portCs, hurl | hurl, hhost, hport⟩
      · subst hurl
        unfold parse_stratum_url
        rw [stripStart_append]
        dsimp only
        unfold parseHostPort
        rw [splitColon_of_append host portCs hhost (parseU16_no_colon _ _ hport)]
        dsimp only
        rw [hport]
      · subst hurl
        unfold parse_stratum_url
        rw [stripStart_p1_of_p2]
        dsimp only
        rw [stripStart_append]
        dsimp only
        unfold parseHostPort
        rw [splitColon_of_append host portCs hhost (parseU16_no_colon _ _ hport)]
        dsimp only
        rw [hport]
  · intro e h
    unfold parse_stratum_url at h
    rcases h1 : stripStart "stratum+tcp://".toList url with _ | s1
    · rw [h1] at h
      dsimp only at h
      rcases h2 : stripStart "stratum://".toList url with _ | s2
      · rw [h2] at h
        dsimp only at h
        injection h with h'
        rw [← h']
        rfl
      · rw [h2] at h
        dsimp only at h
        exact parseHostPort_error s2 e h
    · rw [h1] at h
      dsimp only at h
      exact parseHostPort_error s1 e h

/-- C9 counterexample: the claim requires the port to lie in 1..=65535 for
success, but `u16` parsing accepts 0, so `stratum+tcp://h:0` parses
successfully with port 0. -/
theorem parse_stratum_url_port_zero_counterexample :
    parse_stratum_url "stratum+tcp://h:0".toList = .ok ("h".toList, 0) ∧
    ¬(1 ≤ (0:Nat)) := by decide

/-- Witness for C9: the success characterization applied to a concrete
well-formed URL. -/
theorem parse_stratum_url_spec_witness :
    parse_stratum_url "stratum+tcp://pool.example.com:3333".toList =
      .ok ("pool.example.com".toList, 3333) := by
  refine ((parse_stratum_url_spec _).1 _ 3333).mpr
    ⟨"3333".toList, Or.inl ?_, ?_, ?_⟩ <;> decide

/-- `HashMap::get` over the association-list model of a hash map (the map
contents are order-independent; the list keeps insertion order, which
fixes one deterministic refinement of the source's iteration order). -/
def alistGet {α : Type} (k : String) : List (String × α) → Option α
  | [] => none
  | (k', v) :: rest => if k' = k then some v else alistGet k rest

/-- `HashMap::insert`: replace the entry if the key is present, append it
otherwise. -/
def alistInsert {α : Type} (k : String) (v : α) : List (String × α) → List (String × α)
  | [] => [(k, v)]
  | (k', v') :: rest => if k' = k then (k, v) :: rest else (k', v') :: alistInsert k v rest

/-- In-place update of the entry at a key (`get_mut` followed by field
mutation); identity when the key is absent. -/
def alistModify {α : Type} (k : String) (f : α → α) : List (String × α) → List (String × α)
  | [] => []
  | (k', v) :: rest => if k' = k then (k', f v) :: rest else (k', v) :: alistModify k f rest

/-- `entry(k).or_insert(dflt)` followed by applying `f` to the entry. -/
def alistUpsert {α : Type} (k : String) (dflt : α) (f : α → α)
    (l : List (String × α)) : List (String × α) :=
  match alistGet k l with
  | some _ => alistModify k f l
  | none => l ++ [(k, f dflt)]

/-- Lookup with a default. -/
def alistGetD {α : Type} (k : String) (l : List (String × α)) (d : α) : α :=
  (alistGet k l).getD d

/-- `RewardMethod` of `reward_distribution.rs`. -/
inductive RewardMethod where
  | pps
  | pplns
  | prop
  | score
  | solo
deriving DecidableEq

/-- `Share` of `reward_distribution.rs`; the `f64` difficulty is modelled
as a rational, the `Instant` timestamp as a natural tick count. -/
structure ShareRec where
  id : Nat
  worker_id : String
  difficulty : Rat
  timestamp : Nat
  accepted : Bool
  block_height : Nat
deriving DecidableEq

/-- `BlockReward` of `reward_distribution.rs`. -/
structure BlockReward where
  height : Nat
  hash : String
  reward_sats : Nat
  fees_sats : Nat
  found_at : Nat
  is_mature : Bool
  confirmations : Nat
deriving DecidableEq

/-- `BlockReward::total_sats`. -/
def BlockReward.total_sats (b : BlockReward) : Nat := b.reward_sats + b.fees_sats

/-- `WorkerStats` of `reward_distribution.rs`. -/
structure WorkerStats where
  worker_id : String
  shares_submitted : Nat
  shares_accepted : Nat
  shares_rejected : Nat
  total_difficulty : Rat
  pending_reward_sats : Nat
  paid_reward_sats : Nat
  last_share : Option Nat
  active_since : Option Nat
deriving DecidableEq

/-- `WorkerStats::new`: the given id, every other field defaulted. -/
def WorkerStats.new (id : String) : WorkerStats :=
  ⟨id, 0, 0, 0, 0, 0, 0, none, none⟩

/-- `WorkerStats::acceptance_rate`: 1.0 when nothing was submitted,
`accepted / submitted` otherwise. -/
def WorkerStats.acceptance_rate (s : WorkerStats) : Rat :=
  if s.shares_submitted = 0 then 1
  else (s.shares_accepted : Rat) / (s.shares_submitted : Rat)

/-- `PayoutStatus` of `reward_distribution.rs`. -/
inductive PayoutStatus where
  | pending
  | processing
  | completed
  | failed (reason : String)
deriving DecidableEq

/-- `Payout` of `reward_distribution.rs`. -/
structure Payout where
  id : Nat
  worker_id : String
  amount_sats : Nat
  address : String
  txid : Option String
  status : PayoutStatus
  created_at : Nat
  completed_at : Option Nat
deriving DecidableEq

/-- `RewardConfig` of `reward_distribution.rs`. -/
structure RewardConfig where
  method : RewardMethod
  pool_fee_percent : Rat
  min_payout_sats : Nat
  pplns_window : Nat
  maturity_confirmations : Nat
  score_decay : Rat
deriving DecidableEq

/-- The guarded aggregate state of `RewardDistributor`. -/
structure RewardState where
  workers : List (String × WorkerStats)
  shares : List ShareRec
  blocks : List BlockReward
  payouts : List Payout
  share_counter : Nat
  payout_counter : Nat
  current_height : Nat
deriving DecidableEq

/-- `RewardDistributor::new`: everything empty, counters and height 0. -/
def RewardState.initial : RewardState := ⟨[], [], [], [], 0, 0, 0⟩

/-- `RewardDistributor::register_worker`: insert fresh stats (with
`active_since` set) unless the worker already exists. -/
def register_worker (now : Nat) (id : String) (st : RewardState) : RewardState :=
  match alistGet id st.workers with
  | some _ => st
  | none =>
    { st with workers :=
        st.workers ++ [(id, { WorkerStats.new id with active_since := some now })] }

/-- `RewardDistributor::set_block_height`. -/
def set_block_height (h : Nat) (st : RewardState) : RewardState :=
  { st with current_height := h }

/-- `RewardDistributor::record_block`: blocks are append-only. -/
def record_block (b : BlockReward) (st : RewardState) : RewardState :=
  { st with blocks := st.blocks ++ [b] }

/-- `RewardDistributor::record_share`: allocate the next share id, tag
the share with the current height, append it, trim the front of the log
past `pplns_window` under PPLNS, and update the worker's counters — the
entry for a previously unseen worker is created with `WorkerStats::new("")`,
an empty `worker_id`. -/
def record_share (cfg : RewardConfig) (now : Nat) (worker_id : String)
    (difficulty : Rat) (accepted : Bool) (st : RewardState) : Nat × RewardState :=
  let share_id := st.share_counter + 1
  let share : ShareRec := ⟨share_id, worker_id, difficulty, now, accepted, st.current_height⟩
  let shares1 := st.shares ++ [share]
  let shares2 :=
    if cfg.method = .pplns ∧ cfg.pplns_window < shares1.length
    then shares1.drop (shares1.length - cfg.pplns_window) else shares1
  let upd := fun (s : WorkerStats) =>
    let s1 := { s with shares_submitted := s.shares_submitted + 1 }
    let s2 := if accepted
      then { s1 with shares_accepted := s1.shares_accepted + 1,
                     total_difficulty := s1.total_difficulty + difficulty }
      else { s1 with shares_rejected := s1.shares_rejected + 1 }
    { s2 with last_share := some now }
  let workers' :=
    match alistGet worker_id st.workers with
    | some _ => alistModify worker_id upd st.workers
    | none =>
      st.workers ++ [(worker_id, upd { WorkerStats.new "" with active_since := some now })]
  (share_id,
   { st with share_counter := share_id, shares := shares2, workers := workers' })

/-- Rust's `as u64` cast of a nonnegative `f64`: truncation toward zero
(negative values saturate to 0). -/
def ratFloorToNat (q : Rat) : Nat := Int.toNat ⌊q⌋

/-- `RewardDistributor::calculate_pplns`: among accepted shares with
height at most the block height, take the first `pplns_window`; each
share contributes `⌊distributable · difficulty / total⌋` to its worker. -/
def calculate_pplns (cfg : RewardConfig) (distributable : Nat)
    (block_height : Nat) (shares : List ShareRec) : List (String × Nat) :=
  let relevant := (shares.filter fun s =>
    s.accepted && decide (s.block_height ≤ block_height)).take cfg.pplns_window
  if relevant.isEmpty then []
  else
    let total_difficulty : Rat := (relevant.map fun s => s.difficulty).sum
    relevant.foldl (fun rewards s =>
      let proportion := s.difficulty / total_difficulty
      let reward := ratFloorToNat ((distributable : Rat) * proportion)
      alistUpsert s.worker_id 0 (fun r => r + reward) rewards) []

/-- `RewardDistributor::calculate_proportional`: as PPLNS but the filter
is equality with the block height and there is no window. -/
def calculate_proportional (distributable : Nat) (block_height : Nat)
    (shares : List ShareRec) : List (String × Nat) :=
  let relevant := shares.filter fun s =>
    s.accepted && decide (s.block_height = block_height)
  if relevant.isEmpty then []
  else
    let total_difficulty : Rat := (relevant.map fun s => s.difficulty).sum
    relevant.foldl (fun rewards s =>
      let proportion := s.difficulty / total_difficulty
      let reward := ratFloorToNat ((distributable : Rat) * proportion)
      alistUpsert s.worker_id 0 (fun r => r + reward) rewards) []

/-- `RewardDistributor::calculate_score`.  The source weighs each share
by `score_decay.powf(age_secs)` with a real-valued f64 age; ages here are
whole ticks, so the weight is the rational power `score_decay ^ age`.  No
settled claim depends on this branch. -/
def calculate_score (cfg : RewardConfig) (distributable : Nat) (now : Nat)
    (shares : List ShareRec) : List (String × Nat) :=
  let scores := (shares.filter fun s => s.accepted).foldl (fun sc s =>
    alistUpsert s.worker_id 0
      (fun x => x + s.difficulty * cfg.score_decay ^ (now - s.timestamp)) sc) []
  let total_score : Rat := (scores.map Prod.snd).sum
  if total_score = 0 then []
  else scores.map fun p =>
    (p.1, ratFloorToNat ((distributable : Rat) * p.2 / total_score))

/-- `RewardDistributor::calculate_solo`: the most recent accepted share's
worker receives everything. -/
def calculate_solo (distributable : Nat) (shares : List ShareRec) :
    List (String × Nat) :=
  match (shares.filter fun s => s.accepted).getLast? with
  | some s => [(s.worker_id, distributable)]
  | none => []

/-- `RewardDistributor::calculate_rewards`: find the block, take the pool
fee off the top (f64 product truncated to `u64`), dispatch on the method. -/
def calculate_rewards (cfg : RewardConfig) (now : Nat) (block_height : Nat)
    (st : RewardState) : Except MiningError (List (String × Nat)) :=
  match st.blocks.find? (fun b => b.height == block_height) with
  | none => .error (.configuration "Block not found")
  | some block =>
    let total_reward := block.total_sats
    let pool_fee := ratFloorToNat ((total_reward : Rat) * cfg.pool_fee_percent / 100)
    let distributable := total_reward - pool_fee
    match cfg.method with
    | .pps => .ok []
    | .pplns => .ok (calculate_pplns cfg distributable block_height st.shares)
    | .prop => .ok (calculate_proportional distributable block_height st.shares)
    | .score => .ok (calculate_score cfg distributable now st.shares)
    | .solo => .ok (calculate_solo distributable st.shares)

/-- `RewardDistributor::distribute_rewards`: add each entry to the
matching worker's pending balance; unknown workers are skipped. -/
def distribute_rewards (rewards : List (String × Nat)) (st : RewardState) :
    RewardState :=
  { st with workers := rewards.foldl (fun ws p =>
      match alistGet p.1 ws with
      | some _ => alistModify p.1
          (fun s => { s with pending_reward_sats := s.pending_reward_sats + p.2 }) ws
      | none => ws) st.workers }

/-- `RewardDistributor::create_payout`: fail on an unknown worker; return
`none` below the payout threshold; otherwise allocate the next payout id,
snapshot the pending balance, zero it, and append one `Pending` payout. -/
def create_payout (cfg : RewardConfig) (now : Nat) (worker_id address : String)
    (st : RewardState) : Except MiningError (Option Payout × RewardState) :=
  match alistGet worker_id st.workers with
  | none => .error (.configuration ("Worker not found: " ++ worker_id))
  | some stats =>
    if stats.pending_reward_sats < cfg.min_payout_sats then .ok (none, st)
    else
      let payout_id := st.payout_counter + 1
      let amount := stats.pending_reward_sats
      let workers' := alistModify worker_id
        (fun s => { s with pending_reward_sats := 0 }) st.workers
      let payout : Payout := ⟨payout_id, worker_id, amount, address, none, .pending, now, none⟩
      .ok (some payout,
        { st with payout_counter := payout_id, workers := workers',
                  payouts := st.payouts ++ [payout] })

/-- Mutation of the first payout with a given id (`iter_mut().find`). -/
def modifyFirstPayout (payout_id : Nat) (f : Payout → Payout) :
    List Payout → List Payout
  | [] => []
  | p :: rest =>
    if p.id = payout_id then f p :: rest
    else p :: modifyFirstPayout payout_id f rest

/-- `RewardDistributor::complete_payout`: find the payout by id, record
the txid, set the status to `Completed` and the completion time, then add
the amount to the worker's paid balance. -/
def complete_payout (now : Nat) (payout_id : Nat) (txid : String)
    (st : RewardState) : Except MiningError RewardState :=
  match st.payouts.find? (fun p => p.id == payout_id) with
  | none => .error (.configuration "Payout not found")
  | some payout =>
    let payouts' := modifyFirstPayout payout_id
      (fun p => { p with txid := some txid, status := .completed,
                         completed_at := some now }) st.payouts
    let workers' :=
      match alistGet payout.worker_id st.workers with
      | some _ => alistModify payout.worker_id
          (fun s => { s with paid_reward_sats := s.paid_reward_sats + payout.amount_sats })
          st.workers
      | none => st.workers
    .ok { st with payouts := payouts', workers := workers' }

/-- S5 scenario configuration: PPLNS with a zero pool fee, remaining
fields as `RewardConfig::default`. -/
def cfgS5 : RewardConfig := ⟨.pplns, 0, 10000, 100000, 100, 9999 / 10000⟩

/-- S5 scenario block: height 100, 300 sats total, no fees. -/
def s5Block : BlockReward := ⟨100, "abc", 300, 0, 0, true, 100⟩

/-- S5 scenario state: height 100, worker1 and worker2 registered, an
accepted share of difficulty 2 for worker1 and 1 for worker2, and the
300-sat block recorded. -/
def s5State : RewardState :=
  record_block s5Block
    ((record_share cfgS5 0 "worker2" 1 true
      ((record_share cfgS5 0 "worker1" 2 true
        (register_worker 0 "worker2" (register_worker 0 "worker1"
          (set_block_height 100 RewardState.initial)))).2)).2)


theorem alistGet_modify_self {α : Type} (k : String) (f : α → α)
    (l : List (String × α)) :
    alistGet k (alistModify k f l) = (alistGet k l).map f := by
  induction l with
  | nil => rfl
  | cons p rest ih =>
    obtain ⟨k', v⟩ := p
    by_cases h : k' = k
    · rw [alistModify, if_pos h, alistGet, if_pos h, alistGet, if_pos h]
      rfl
    · rw [alistModify, if_neg h, alistGet, if_neg h, alistGet, if_neg h, ih]

theorem alistGet_modify_ne {α : Type} (k k2 : String) (h : k ≠ k2) (f : α → α)
    (l : List (String × α)) :
    alistGet k2 (alistModify k f l) = alistGet k2 l := by
  induction l with
  | nil => rfl
  | cons p rest ih =>
    obtain ⟨k', v⟩ := p
    by_cases hk : k' = k
    · rw [alistModify, if_pos hk, alistGet, alistGet]
      have : ¬(k' = k2) := by rw [hk]; exact h
      rw [if_neg this, if_neg this]
    · rw [alistModify, if_neg hk, alistGet, alistGet, ih]

theorem alistGet_append_of_none {α : Type} (k : String) (l1 l2 : List (String × α))
    (h : alistGet k l1 = none) : alistGet k (l1 ++ l2) = alistGet k l2 := by
  induction l1 with
  | nil => rfl
  | cons p rest ih =>
    obtain ⟨k', v⟩ := p
    by_cases hk : k' = k
    · rw [alistGet, if_pos hk] at h
      cases h
    · rw [alistGet, if_neg hk] at h
      rw [List.cons_append, alistGet, if_neg hk, ih h]

theorem alistGet_append_of_some {α : Type} (k : String) (l1 l2 : List (String × α))
    (v : α) (h : alistGet k l1 = some v) : alistGet k (l1 ++ l2) = some v := by
  induction l1 with
  | nil => cases h
  | cons p rest ih =>
    obtain ⟨k', v'⟩ := p
    by_cases hk : k' = k
    · rw [alistGet, if_pos hk] at h
      rw [List.cons_append, alistGet, if_pos hk]
      exact h
    · rw [alistGet, if_neg hk] at h
      rw [List.cons_append, alistGet, if_neg hk, ih h]

theorem alistGetD_upsert (k w : String) (x : Nat) (l : List (String × Nat)) :
    alistGetD w (alistUpsert k 0 (fun r => r + x) l) 0 =
      alistGetD w l 0 + if k = w then x else 0 := by
  unfold alistUpsert alistGetD
  rcases hk : alistGet k l with _ | v
  · by_cases hkw : k = w
    · subst hkw
      rw [alistGet_append_of_none k l _ hk, hk]
      rw [alistGet, if_pos rfl]
      simp
    · rw [if_neg hkw]
      rcases hw : alistGet w l with _ | vw
      · rw [alistGet_append_of_none w l _ hw]
        rw [alistGet, if_neg hkw]
        simp [alistGet]
      · rw [alistGet_append_of_some w l _ vw hw]
        simp
  · by_cases hkw : k = w
    · subst hkw
      rw [alistGet_modify_self, hk]
      simp
    · rw [alistGet_modify_ne k w hkw, if_neg hkw]
      simp

theorem pplns_fold_lookup (g : ShareRec → Nat) (w : String) :
    ∀ (shares : List ShareRec) (init : List (String × Nat)),
    alistGetD w (shares.foldl (fun rewards s =>
        alistUpsert s.worker_id 0 (fun r => r + g s) rewards) init) 0 =
      alistGetD w init 0 +
        ((shares.filter (fun s => s.worker_id == w)).map g).sum := by
  intro shares
  induction shares with
  | nil =>
    intro init
    simp
  | cons s rest ih =>
    intro init
    rw [List.foldl_cons, ih, alistGetD_upsert]
    by_cases hw : s.worker_id = w
    · rw [if_pos hw]
      rw [List.filter_cons_of_pos (by simpa using hw), List.map_cons, List.sum_cons]
      omega
    · rw [if_neg hw]
      rw [List.filter_cons_of_neg (by simpa using hw)]
      omega

/-- C3: the PPLNS reward of a worker is the sum, over the first
`pplns_window` accepted shares with `block_height ≤ height`, of the
truncation of `distributable · diff / Σdiff` (difficulties modelled as
exact rationals; every value the settled scenario evaluates is exact in
f64); and in the S5 scenario — height 100, worker1 and worker2 with
accepted shares of difficulty 2 and 1, a block of 300 sats with 0% fee —
`calculate_rewards 100` returns exactly worker1 ↦ 200, worker2 ↦ 100. -/
theorem calculate_pplns_spec (cfg : RewardConfig) (dist height : Nat)
    (shares : List ShareRec)
    (hne : (shares.filter fun s =>
      s.accepted && decide (s.block_height ≤ height)).take cfg.pplns_window ≠ []) :
    (∀ w, alistGetD w (calculate_pplns cfg dist height shares) 0 =
      ((((shares.filter fun s =>
            s.accepted && decide (s.block_height ≤ height)).take cfg.pplns_window).filter
          (fun s => s.worker_id == w)).map (fun s =>
        ratFloorToNat ((dist : Rat) * (s.difficulty /
          (((shares.filter fun s =>
              s.accepted && decide (s.block_height ≤ height)).take cfg.pplns_window).map
            (fun s => s.difficulty)).sum)))).sum) ∧
    calculate_rewards cfgS5 0 100 s5State = .ok [("worker1", 200), ("worker2", 100)] := by
  constructor
  · intro w
    unfold calculate_pplns
    rw [if_neg (by simpa [List.isEmpty_iff] using hne)]
    have h := pplns_fold_lookup (fun s =>
      ratFloorToNat ((dist : Rat) * (s.difficulty /
        (((shares.filter fun s =>
            s.accepted && decide (s.block_height ≤ height)).take cfg.pplns_window).map
          (fun s => s.difficulty)).sum))) w
      ((shares.filter fun s =>
        s.accepted && decide (s.block_height ≤ height)).take cfg.pplns_window) []
    rw [h]
    simp [alistGetD, alistGet]
  · norm_num [calculate_rewards, s5State, cfgS5, s5Block, record_block, record_share,
      register_worker, set_block_height, RewardState.initial, alistGet, alistModify,
      alistUpsert, calculate_pplns, WorkerStats.new, BlockReward.total_sats,
      ratFloorToNat, List.find?, List.filter, List.take, List.foldl]
    decide

/-- Concrete accepted share of difficulty 2 at height 100 for worker1. -/
def shareA : ShareRec := ⟨1, "worker1", 2, 0, true, 100⟩

/-- Concrete accepted share of difficulty 1 at height 100 for worker2. -/
def shareB : ShareRec := ⟨2, "worker2", 1, 0, true, 100⟩

/-- Witness for C3: the per-worker PPLNS formula instantiated on a
two-share log. -/
theorem calculate_pplns_spec_witness :
    alistGetD "worker1" (calculate_pplns cfgS5 300 100 [shareA, shareB]) 0 =
      (((([shareA, shareB].filter fun s =>
            s.accepted && decide (s.block_height ≤ 100)).take cfgS5.pplns_window).filter
          (fun s => s.worker_id == "worker1")).map (fun s =>
        ratFloorToNat ((300 : Rat) * (s.difficulty /
          ((([shareA, shareB].filter fun s =>
              s.accepted && decide (s.block_height ≤ 100)).take cfgS5.pplns_window).map
            (fun s => s.difficulty)).sum)))).sum :=
  (calculate_pplns_spec cfgS5 300 100 [shareA, shareB] (by decide)).1 "worker1"

/-- C10: recording a share for a never-seen worker id succeeds, returns
the next share id, and implicitly creates a worker entry keyed by that id
— but the stored `worker_id` field is the empty string (the source builds
the fallback entry with `WorkerStats::new("")`), while all counter
updates land on that entry. -/
theorem record_share_unknown_worker (cfg : RewardConfig) (now : Nat)
    (w : String) (d : Rat) (acc : Bool) (st : RewardState)
    (hw : alistGet w st.workers = none) :
    (record_share cfg now w d acc st).1 = st.share_counter + 1 ∧
    (record_share cfg now w d acc st).2.share_counter = st.share_counter + 1 ∧
    ∃ s : WorkerStats,
      alistGet w (record_share cfg now w d acc st).2.workers = some s ∧
      s.worker_id = "" ∧
      s.shares_submitted = 1 ∧
      s.shares_accepted = (if acc then 1 else 0) ∧
      s.shares_rejected = (if acc then 0 else 1) ∧
      s.total_difficulty = (if acc then (0:Rat) + d else 0) ∧
      s.last_share = some now ∧
      s.active_since = some now := by
  cases acc with
  | true =>
    unfold record_share
    dsimp only
    rw [hw]
    dsimp only
    refine ⟨rfl, rfl, ⟨"", 1, 1, 0, 0 + d, 0, 0, some now, some now⟩,
      ?_, rfl, rfl, rfl, rfl, rfl, rfl, rfl⟩
    rw [alistGet_append_of_none w st.workers _ hw, alistGet, if_pos rfl]
    simp [WorkerStats.new]
  | false =>
    unfold record_share
    dsimp only
    rw [hw]
    dsimp only
    refine ⟨rfl, rfl, ⟨"", 1, 0, 1, 0, 0, 0, some now, some now⟩,
      ?_, rfl, rfl, rfl, rfl, rfl, rfl, rfl⟩
    rw [alistGet_append_of_none w st.workers _ hw, alistGet, if_pos rfl]
    simp [WorkerStats.new]

/-- Witness for C10: an accepted share of difficulty 3 recorded for an
unknown worker on the initial state. -/
theorem record_share_unknown_worker_witness :
    alistGet "w1" RewardState.initial.workers = none ∧
    ((record_share cfgS5 9 "w1" 3 true RewardState.initial).1 = 0 + 1 ∧
     (record_share cfgS5 9 "w1" 3 true RewardState.initial).2.share_counter = 0 + 1 ∧
     ∃ s : WorkerStats,
       alistGet "w1" (record_share cfgS5 9 "w1" 3 true RewardState.initial).2.workers = some s ∧
       s.worker_id = "" ∧
       s.shares_submitted = 1 ∧
       s.shares_accepted = (if true then 1 else 0) ∧
       s.shares_rejected = (if true then 0 else 1) ∧
       s.total_difficulty = (if true then (0:Rat) + 3 else 0) ∧
       s.last_share = some 9 ∧
       s.active_since = some 9) :=
  ⟨rfl, record_share_unknown_worker cfgS5 9 "w1" 3 true RewardState.initial rfl⟩

theorem payout_find_append (l : List Payout) (p : Payout) (i : Nat)
    (hp : p.id = i) (h : ∀ q ∈ l, q.id ≠ i) :
    (l ++ [p]).find? (fun q => q.id == i) = some p := by
  induction l with
  | nil =>
    rw [List.nil_append]
    rw [List.find?_cons_of_pos _ (by simpa using hp)]
  | cons q rest ih =>
    rw [List.cons_append]
    rw [List.find?_cons_of_neg _ (by simpa using h q (List.mem_cons_self q rest))]
    exact ih (fun r hr => h r (List.mem_cons_of_mem q hr))

theorem payout_modify_append (l : List Payout) (p : Payout) (i : Nat)
    (hp : p.id = i) (f : Payout → Payout) (h : ∀ q ∈ l, q.id ≠ i) :
    modifyFirstPayout i f (l ++ [p]) = l ++ [f p] := by
  induction l with
  | nil =>
    rw [List.nil_append, modifyFirstPayout, if_pos hp, List.nil_append]
  | cons q rest ih =>
    rw [List.cons_append, modifyFirstPayout,
      if_neg (h q (List.mem_cons_self q rest)), List.cons_append,
      ih (fun r hr => h r (List.mem_cons_of_mem q hr))]

/-- C4: `create_payout` fails on an unknown worker; returns `none` and
leaves the state unchanged when the pending balance is below
`min_payout_sats`; otherwise returns a payout carrying the prior pending
balance, zeroes the worker's pending balance, and appends exactly one new
`Pending` payout; a subsequent `complete_payout` on the returned id (fresh
with respect to the existing payout log) sets the status to `Completed`,
records the txid and the completion time, and adds the amount to the
worker's paid balance. -/
theorem create_complete_payout_spec (cfg : RewardConfig) (now now2 : Nat)
    (w address txid : String) (st : RewardState) :
    (alistGet w st.workers = none →
      create_payout cfg now w address st =
        .error (.configuration ("Worker not found: " ++ w))) ∧
    (∀ stats, alistGet w st.workers = some stats →
      (stats.pending_reward_sats < cfg.min_payout_sats →
        create_payout cfg now w address st = .ok (none, st)) ∧
      (cfg.min_payout_sats ≤ stats.pending_reward_sats →
        ∃ p st', create_payout cfg now w address st = .ok (some p, st') ∧
          p.amount_sats = stats.pending_reward_sats ∧
          p.status = .pending ∧
          p.worker_id = w ∧
          p.id = st.payout_counter + 1 ∧
          alistGet w st'.workers = some { stats with pending_reward_sats := 0 } ∧
          st'.payouts = st.payouts ++ [p] ∧
          ((∀ q ∈ st.payouts, q.id ≠ st.payout_counter + 1) →
            ∃ st'', complete_payout now2 p.id txid st' = .ok st'' ∧
              st''.payouts = st.payouts ++
                [{ p with txid := some txid, status := .completed,
                          completed_at := some now2 }] ∧
              alistGet w st''.workers = some
                { stats with
                    pending_reward_sats := 0,
                    paid_reward_sats :=
                      stats.paid_reward_sats + stats.pending_reward_sats }))) := by
  constructor
  · intro h
    unfold create_payout
    rw [h]
  · intro stats hstats
    constructor
    · intro hlt
      unfold create_payout
      rw [hstats]
      dsimp only
      rw [if_pos hlt]
    · intro hge
      unfold create_payout
      rw [hstats]
      dsimp only
      rw [if_neg (Nat.not_lt.mpr hge)]
      refine ⟨_, _, rfl, rfl, rfl, rfl, rfl, ?_, rfl, ?_⟩
      · rw [alistGet_modify_self, hstats]
        rfl
      · intro hids
        unfold complete_payout
        dsimp only
        rw [payout_find_append st.payouts _ (st.payout_counter + 1) rfl hids]
        dsimp only
        rw [payout_modify_append st.payouts _ (st.payout_counter + 1) rfl _ hids]
        rw [alistGet_modify_self, hstats]
        simp only [Option.map_some']
        refine ⟨_, rfl, rfl, ?_⟩
        rw [alistGet_modify_self, alistGet_modify_self, hstats]
        rfl

/-- `RewardConfig::default`: PPLNS, 1% fee, 10_000 sat threshold. -/
def cfgDefault : RewardConfig := ⟨.pplns, 1, 10000, 100000, 100, 9999 / 10000⟩

/-- A worker with 25_000 pending sats. -/
def wsRich : WorkerStats := { WorkerStats.new "worker1" with pending_reward_sats := 25000 }

/-- A distributor state holding only that worker. -/
def stPayout : RewardState := ⟨[("worker1", wsRich)], [], [], [], 0, 0, 0⟩

/-- Witness for C4: payout creation and completion on a worker with
25_000 pending sats against a 10_000 sat threshold. -/
theorem create_complete_payout_spec_witness :
    ∃ p st', create_payout cfgDefault 3 "worker1" "addr" stPayout = .ok (some p, st') ∧
      p.amount_sats = wsRich.pending_reward_sats ∧ p.status = .pending ∧
      p.worker_id = "worker1" ∧ p.id = stPayout.payout_counter + 1 ∧
      alistGet "worker1" st'.workers = some { wsRich with pending_reward_sats := 0 } ∧
      st'.payouts = stPayout.payouts ++ [p] ∧
      ((∀ q ∈ stPayout.payouts, q.id ≠ stPayout.payout_counter + 1) →
        ∃ st'', complete_payout 4 p.id "tx0" st' = .ok st'' ∧
          st''.payouts = stPayout.payouts ++
            [{ p with txid := some "tx0", status := .completed,
                      completed_at := some 4 }] ∧
          alistGet "worker1" st''.workers = some
            { wsRich with
                pending_reward_sats := 0,
                paid_reward_sats :=
                  wsRich.paid_reward_sats + wsRich.pending_reward_sats }) :=
  ((create_complete_payout_spec cfgDefault 3 4 "worker1" "addr" "tx0" stPayout).2
    wsRich (by decide)).2 (by decide)

/-- `PoolPriority` of `pool_management.rs`; `Ord` derives from the
discriminants Primary = 0 < Backup = 1 < Emergency = 2. -/
inductive PoolPriority where
  | primary
  | backup
  | emergency
deriving DecidableEq

/-- Discriminant of a priority, the key of the source's derived `Ord`. -/
def PoolPriority.toNat : PoolPriority → Nat
  | .primary => 0
  | .backup => 1
  | .emergency => 2

/-- `PoolConfig` of `pool_management.rs`; durations in whole seconds. -/
structure PoolConfig where
  id : String
  url : String
  worker : String
  password : Option String
  priority : PoolPriority
  connect_timeout : Nat
  keepalive_interval : Nat
  max_retries : Nat
  retry_delay : Nat
  fee_percent : Rat
deriving DecidableEq

/-- `PoolStatus` of `pool_management.rs`. -/
inductive PoolStatus where
  | disconnected
  | connecting
  | connected
  | subscribed
  | authorized
  | failed (reason : String)
  | disabled (reason : String)
deriving DecidableEq

/-- Whether a status is `Failed` or `Disabled` (the candidates filter of
`select_best_pool` excludes these). -/
def PoolStatus.isFailedOrDisabled : PoolStatus → Bool
  | .failed _ => true
  | .disabled _ => true
  | _ => false

/-- `PoolState` of `pool_management.rs`. -/
structure PoolState where
  config : PoolConfig
  status : PoolStatus
  connection_attempts : Nat
  successful_connections : Nat
  shares_submitted : Nat
  shares_accepted : Nat
  shares_rejected : Nat
  last_connected : Option Nat
  last_share : Option Nat
  latency_ms : Option Nat
deriving DecidableEq

/-- `PoolState::new`: disconnected, all counters zero. -/
def PoolState.new (config : PoolConfig) : PoolState :=
  ⟨config, .disconnected, 0, 0, 0, 0, 0, none, none, none⟩

/-- `PoolState::acceptance_rate`: 1.0 when nothing was submitted,
`accepted / submitted` otherwise. -/
def PoolState.acceptance_rate (p : PoolState) : Rat :=
  if p.shares_submitted = 0 then 1
  else (p.shares_accepted : Rat) / (p.shares_submitted : Rat)

/-- `FailoverEvent` of `pool_management.rs`. -/
structure FailoverEvent where
  timestamp : Nat
  from_pool : Option String
  to_pool : String
  reason : String
deriving DecidableEq

/-- The guarded aggregate state of `PoolManager`. -/
structure PoolManagerState where
  pools : List (String × PoolState)
  active_pool : Option String
  failover_history : List FailoverEvent
deriving DecidableEq

/-- Sort comparator of `select_best_pool`, as a strict "comes before"
test: lower priority discriminant first, then higher acceptance rate. -/
def poolBefore (a b : PoolState) : Bool :=
  a.config.priority.toNat < b.config.priority.toNat ||
    (a.config.priority.toNat == b.config.priority.toNat &&
      b.acceptance_rate < a.acceptance_rate)

/-- `PoolManager::select_best_pool`: filter out failed and disabled
pools, stable-sort by (priority ascending, acceptance rate descending),
take the first.  The fold keeps the earliest candidate that no later
candidate strictly beats — exactly the head of the stable sort. -/
def select_best_pool (st : PoolManagerState) : Option String :=
  let candidates := (st.pools.map Prod.snd).filter fun p =>
    !p.status.isFailedOrDisabled
  match candidates with
  | [] => none
  | c :: cs =>
    some ((cs.foldl (fun best p => if poolBefore p best then p else best) c).config.id)

/-- `PoolManager::update_status`. -/
def update_status (pool_id : String) (status : PoolStatus)
    (st : PoolManagerState) : Except MiningError PoolManagerState :=
  match alistGet pool_id st.pools with
  | none => .error (.poolConnection ("Pool not found: " ++ pool_id))
  | some _ =>
    .ok { st with
            pools := alistModify pool_id (fun p => { p with status := status }) st.pools }

/-- `PoolManager::set_active_pool`: verify existence, then set. -/
def set_active_pool (pool_id : String) (st : PoolManagerState) :
    Except MiningError PoolManagerState :=
  match alistGet pool_id st.pools with
  | none => .error (.poolConnection ("Pool not found: " ++ pool_id))
  | some _ => .ok { st with active_pool := some pool_id }

/-- `PoolManager::failover`: mark the current active pool `Failed`,
re-select, and when a candidate exists make it active and append one
failover event; when none exists the state (in particular the active
pool) is left as is and no event is recorded. -/
def failover (now : Nat) (reason : String) (st : PoolManagerState) :
    Except MiningError (Option String × PoolManagerState) :=
  let current := st.active_pool
  match (match current with
    | some pool_id => update_status pool_id (.failed reason) st
    | none => .ok st) with
  | .error e => .error e
  | .ok st1 =>
    match select_best_pool st1 with
    | some pool_id =>
      match set_active_pool pool_id st1 with
      | .error e => .error e
      | .ok st2 => .ok (some pool_id,
          { st2 with failover_history :=
              st2.failover_history ++ [⟨now, current, pool_id, reason⟩] })
    | none => .ok (none, st1)

/-- The S4 primary pool configuration. -/
def poolCfgPrimary : PoolConfig :=
  ⟨"primary", "stratum+tcp://localhost:3333", "worker1", none, .primary, 30, 30, 3, 5, 1⟩

/-- The S4 backup pool configuration. -/
def poolCfgBackup : PoolConfig :=
  ⟨"backup", "stratum+tcp://localhost:3333", "worker1", none, .backup, 30, 30, 3, 5, 1⟩

/-- S4 scenario state: primary and backup registered, primary active. -/
def s4State : PoolManagerState :=
  ⟨[("primary", PoolState.new poolCfgPrimary), ("backup", PoolState.new poolCfgBackup)],
   some "primary", []⟩

/-- A manager holding only the primary pool, with it active. -/
def s4Single : PoolManagerState :=
  ⟨[("primary", PoolState.new poolCfgPrimary)], some "primary", []⟩

/-- C5 (amended): `failover(reason)` marks the active pool
`Failed(reason)` and re-runs best-pool selection over the non-Failed,
non-Disabled candidates ordered by priority ascending then acceptance
rate descending; when a candidate exists it becomes active and exactly
one `{timestamp, from, to, reason}` event is appended; when no candidate
remains, no event is recorded and the active pool is left unchanged —
still pointing at the just-failed pool, not cleared to none.  In the S4
scenario, failover from primary leaves backup active, primary
`Failed("lost")`, and one history event from primary to backup. -/
theorem failover_spec (now : Nat) (reason : String) (st : PoolManagerState)
    (a : String) (pa : PoolState) (ha : st.active_pool = some a)
    (hpa : alistGet a st.pools = some pa) :
    (∀ b pb,
      select_best_pool { st with
        pools := alistModify a (fun p => { p with status := .failed reason }) st.pools }
        = some b →
      alistGet b (alistModify a (fun p => { p with status := .failed reason }) st.pools) =
        some pb →
      failover now reason st = .ok (some b,
        { st with
            pools := alistModify a (fun p => { p with status := .failed reason }) st.pools,
            active_pool := some b,
            failover_history := st.failover_history ++ [⟨now, some a, b, reason⟩] })) ∧
    (select_best_pool { st with
        pools := alistModify a (fun p => { p with status := .failed reason }) st.pools }
        = none →
      failover now reason st = .ok (none,
        { st with
            pools := alistModify a (fun p => { p with status := .failed reason }) st.pools })) ∧
    failover 7 "lost" s4State = .ok (some "backup",
      ⟨[("primary", { PoolState.new poolCfgPrimary with status := .failed "lost" }),
        ("backup", PoolState.new poolCfgBackup)], some "backup",
       [⟨7, some "primary", "backup", "lost"⟩]⟩) := by
  have hstep : (match st.active_pool with
      | some pool_id => update_status pool_id (.failed reason) st
      | none => .ok st) = update_status a (.failed reason) st := by rw [ha]
  refine ⟨?_, ?_, by decide⟩
  · intro b pb hsel hpb
    unfold failover
    dsimp only
    rw [hstep]
    unfold update_status
    rw [hpa]
    dsimp only
    rw [hsel]
    dsimp only
    unfold set_active_pool
    dsimp only
    rw [hpb]
    dsimp only
    rw [ha]
  · intro hsel
    unfold failover
    dsimp only
    rw [hstep]
    unfold update_status
    rw [hpa]
    dsimp only
    rw [hsel]

/-- C5 counterexample: with a single pool that is also active, failover
finds no candidate; the claim says the active pool then becomes none, but
the source leaves it pointing at the just-failed pool. -/
theorem failover_no_candidate_counterexample :
    failover 7 "lost" s4Single = .ok (none,
      ⟨[("primary", { PoolState.new poolCfgPrimary with status := .failed "lost" })],
       some "primary", []⟩) ∧
    (some "primary" : Option String) ≠ none := by decide

/-- Witness for C5: the success branch instantiated on the S4 state. -/
theorem failover_spec_witness :
    failover 7 "lost" s4State = .ok (some "backup",
      { s4State with
          pools := alistModify "primary"
            (fun p => { p with status := .failed "lost" }) s4State.pools,
          active_pool := some "backup",
          failover_history := s4State.failover_history ++
            [⟨7, some "primary", "backup", "lost"⟩] }) :=
  (failover_spec 7 "lost" s4State "primary" (PoolState.new poolCfgPrimary)
    (by decide) (by decide)).1 "backup" (PoolState.new poolCfgBackup)
    (by decide) (by decide)

theorem rate_helper (acc rej sub : Nat) (h : acc + rej ≤ sub) :
    0 ≤ (if sub = 0 then (1:Rat) else (acc : Rat) / (sub : Rat)) ∧
    (if sub = 0 then (1:Rat) else (acc : Rat) / (sub : Rat)) ≤ 1 ∧
    (sub = 0 → (if sub = 0 then (1:Rat) else (acc : Rat) / (sub : Rat)) = 1) ∧
    (0 < sub → (if sub = 0 then (1:Rat) else (acc : Rat) / (sub : Rat)) =
      (acc : Rat) / (sub : Rat)) ∧
    ((if sub = 0 then (1:Rat) else (acc : Rat) / (sub : Rat)) = 1 ↔
      sub = 0 ∨ acc = sub) := by
  by_cases hs : sub = 0
  · rw [if_pos hs]
    refine ⟨by norm_num, by norm_num, fun _ => rfl, fun hlt => absurd hs (by omega), ?_⟩
    simp [hs]
  · rw [if_neg hs]
    have hsub0 : (0:Rat) < (sub : Rat) := by
      have : 0 < sub := Nat.pos_of_ne_zero hs
      exact_mod_cast this
    have hacc : acc ≤ sub := by omega
    have haccQ : (acc : Rat) ≤ (sub : Rat) := by exact_mod_cast hacc
    refine ⟨?_, ?_, fun h0 => absurd h0 hs, fun _ => rfl, ?_⟩
    · exact div_nonneg (by positivity) (le_of_lt hsub0)
    · rw [div_le_one hsub0]
      exact haccQ
    · rw [div_eq_one_iff_eq (ne_of_gt hsub0)]
      constructor
      · intro he
        right
        exact_mod_cast he
      · intro he
        rcases he with he | he
        · exact absurd he hs
        · exact_mod_cast congrArg (fun n : Nat => (n : Rat)) he

/-- C8 (amended): for worker and pool statistics with
`accepted + rejected ≤ submitted`, the acceptance rate lies in [0, 1],
equals `accepted / submitted` when something was submitted, is defined to
1 when nothing was, and equals 1 exactly when nothing was submitted or
everything submitted was accepted (so `rate = 1` does not imply
`submitted = 0`, contrary to the claim's "exactly when"). -/
theorem acceptance_rate_spec :
    (∀ s : WorkerStats, s.shares_accepted + s.shares_rejected ≤ s.shares_submitted →
      0 ≤ s.acceptance_rate ∧ s.acceptance_rate ≤ 1 ∧
      (s.shares_submitted = 0 → s.acceptance_rate = 1) ∧
      (0 < s.shares_submitted →
        s.acceptance_rate = (s.shares_accepted : Rat) / (s.shares_submitted : Rat)) ∧
      (s.acceptance_rate = 1 ↔
        s.shares_submitted = 0 ∨ s.shares_accepted = s.shares_submitted)) ∧
    (∀ p : PoolState, p.shares_accepted + p.shares_rejected ≤ p.shares_submitted →
      0 ≤ p.acceptance_rate ∧ p.acceptance_rate ≤ 1 ∧
      (p.shares_submitted = 0 → p.acceptance_rate = 1) ∧
      (0 < p.shares_submitted →
        p.acceptance_rate = (p.shares_accepted : Rat) / (p.shares_submitted : Rat)) ∧
      (p.acceptance_rate = 1 ↔
        p.shares_submitted = 0 ∨ p.shares_accepted = p.shares_submitted)) := by
  constructor
  · intro s h
    exact rate_helper s.shares_accepted s.shares_rejected s.shares_submitted h
  · intro p h
    exact rate_helper p.shares_accepted p.shares_rejected p.shares_submitted h

/-- A worker with one submitted and one accepted share. -/
def wsOneAccepted : WorkerStats :=
  { WorkerStats.new "w" with shares_submitted := 1, shares_accepted := 1 }

/-- C8 counterexample: this worker satisfies the claim's hypothesis, has
acceptance rate exactly 1.0, yet `shares_submitted ≠ 0` — refuting
"equals 1.0 exactly when shares_submitted = 0". -/
theorem acceptance_rate_counterexample :
    wsOneAccepted.shares_accepted + wsOneAccepted.shares_rejected ≤
      wsOneAccepted.shares_submitted ∧
    wsOneAccepted.acceptance_rate = 1 ∧
    wsOneAccepted.shares_submitted ≠ 0 := by
  refine ⟨by decide, ?_, by decide⟩
  norm_num [WorkerStats.acceptance_rate, wsOneAccepted, WorkerStats.new]

/-- A pool with 3 accepted and 1 rejected of 5 submitted shares. -/
def poolFiveShares : PoolState :=
  { PoolState.new poolCfgPrimary with
      shares_submitted := 5, shares_accepted := 3, shares_rejected := 1 }

/-- Witness for C8 on that pool. -/
theorem acceptance_rate_spec_witness :
    (3 + 1 ≤ 5) ∧
    (0 ≤ poolFiveShares.acceptance_rate ∧ poolFiveShares.acceptance_rate ≤ 1) :=
  ⟨by decide,
   (acceptance_rate_spec.2 poolFiveShares (by decide)).1,
   ((acceptance_rate_spec.2 poolFiveShares (by decide)).2).1⟩
